import Mathlib

/-!
Verification development for the `chalkboard` / `chalkboard-geometry` repository.

Integer pixel coordinates (`i32`) are modelled as `ℤ` (no arithmetic here comes
near the `i32` range, so wrap-around is irrelevant).  32-bit floating point
values are modelled as real numbers (`ℝ`); `f32::round` / `as i32` / `as usize`
casts are modelled by the exact rounding and truncation functions on `ℝ`.
-/

namespace Chalkboard

/-- A point in two-dimensional space (`Point` in `chalkboard-geometry/src/lib.rs`),
with `i32` coordinates modelled as `ℤ`. -/
structure Point where
  x : ℤ
  y : ℤ
deriving DecidableEq, Repr

/-- A straight line segment between two points (`Line` in `lib.rs`). -/
structure Line where
  x1 : ℤ
  y1 : ℤ
  x2 : ℤ
  y2 : ℤ
deriving DecidableEq, Repr

/-- `Line::point1` from `lib.rs`. -/
def Line.point1 (l : Line) : Point := ⟨l.x1, l.y1⟩

/-- `Line::point2` from `lib.rs`. -/
def Line.point2 (l : Line) : Point := ⟨l.x2, l.y2⟩

/-- `Line::from_points` from `lib.rs`. -/
def Line.fromPoints (p1 p2 : Point) : Line := ⟨p1.x, p1.y, p2.x, p2.y⟩

/-- `Line::contains_point` from `lib.rs`, verbatim: note that the final
comparison tests `point.y >= cmp::min(self.x1, self.x2)` against the X
coordinates, exactly as in the source. -/
def Line.containsPoint (l : Line) (point : Point) : Bool :=
  point.x ≤ max l.x1 l.x2 && point.x ≥ min l.x1 l.x2 &&
    point.y ≤ max l.y1 l.y2 && point.y ≥ min l.x1 l.x2

/-- `Orientation` from `lib.rs`. -/
inductive Orientation where
  | colinear
  | clockwise
  | counterclockwise
deriving DecidableEq, Repr

/-- `Orientation::get` from `lib.rs`. -/
def Orientation.get (p1 p2 p3 : Point) : Orientation :=
  let d := ((p2.y - p1.y) * (p3.x - p1.x)) - ((p2.x - p1.x) * (p3.y - p1.y))
  if d = 0 then .colinear
  else if 0 < d then .clockwise
  else .counterclockwise

/-- `Line::intersection` from `lib.rs`, verbatim: in the source both `p3` and
`p4` are bound to `other.point1()`. -/
def Line.intersection (l other : Line) : Bool :=
  let p1 := l.point1
  let p2 := l.point2
  let p3 := other.point1
  let p4 := other.point1
  let o1 := Orientation.get p1 p2 p3
  let o2 := Orientation.get p1 p2 p4
  let o3 := Orientation.get p3 p4 p1
  let o4 := Orientation.get p3 p4 p2
  (o1 ≠ o2 && o3 ≠ o4)
    || (o1 = .colinear && l.containsPoint p3)
    || (o2 = .colinear && l.containsPoint p4)
    || (o3 = .colinear && other.containsPoint p1)
    || (o4 = .colinear && other.containsPoint p2)

/-- Modelled from the spec: the bounding-span containment used by the classic
orientation-triple segment intersection test ("an endpoint is colinear with,
and contained within, the other's bounding span"). -/
def specSpanContains (l : Line) (point : Point) : Bool :=
  point.x ≤ max l.x1 l.x2 && point.x ≥ min l.x1 l.x2 &&
    point.y ≤ max l.y1 l.y2 && point.y ≥ min l.y1 l.y2

/-- Modelled from the spec: the classic orientation-triple segment
intersection test the spec describes for `Line::intersection` — the endpoints
straddle each other's line, or an endpoint is colinear with and contained
within the other segment's bounding span. -/
def specSegmentsIntersect (l other : Line) : Bool :=
  let p1 := l.point1
  let p2 := l.point2
  let p3 := other.point1
  let p4 := other.point2
  let o1 := Orientation.get p1 p2 p3
  let o2 := Orientation.get p1 p2 p4
  let o3 := Orientation.get p3 p4 p1
  let o4 := Orientation.get p3 p4 p2
  (o1 ≠ o2 && o3 ≠ o4)
    || (o1 = .colinear && specSpanContains l p3)
    || (o2 = .colinear && specSpanContains l p4)
    || (o3 = .colinear && specSpanContains other p1)
    || (o4 = .colinear && specSpanContains other p2)

/-- C4: the claim fails on the code.  The segments `(0,5)–(10,5)` and
`(5,0)–(5,10)` cross at `(5,5)`, so the claimed orientation-triple test
returns `true`, but `Line::intersection` returns `false`: the source binds
both `p3` and `p4` to `other.point1()`, which degenerates the orientation
tests, and its `contains_point` compares `point.y` against
`min(self.x1, self.x2)`. -/
theorem c4_intersection_failing_input :
    Line.intersection ⟨0, 5, 10, 5⟩ ⟨5, 0, 5, 10⟩ = false ∧
      specSegmentsIntersect ⟨0, 5, 10, 5⟩ ⟨5, 0, 5, 10⟩ = true := by
  decide

/-! ### Real-number modelling of `f32` operations -/

/-- Rust `f32::round` (round half away from zero), modelled on `ℝ`. -/
noncomputable def rustRound (x : ℝ) : ℤ :=
  if 0 ≤ x then ⌊x + 1 / 2⌋ else -⌊-x + 1 / 2⌋

/-- Rust `as i32` on an `f32` (truncation toward zero), modelled on `ℝ`. -/
noncomputable def rustTruncInt (x : ℝ) : ℤ :=
  if 0 ≤ x then ⌊x⌋ else -⌊-x⌋

/-- Rust `as usize` on an `f32` (truncation toward zero, negative values
saturating to 0), modelled on `ℝ`. -/
noncomputable def rustTruncNat (x : ℝ) : ℕ :=
  ⌊x⌋.toNat

theorem rustRound_intCast (n : ℤ) : rustRound (n : ℝ) = n := by
  have key : ∀ m : ℤ, ⌊(m : ℝ) + 1 / 2⌋ = m := by
    intro m
    rw [add_comm, Int.floor_add_int]
    norm_num
  unfold rustRound
  rcases le_or_lt 0 (n : ℝ) with h | h
  · rw [if_pos h, key]
  · rw [if_neg (not_le.mpr h)]
    have : (-(n : ℝ) + 1 / 2) = ((-n : ℤ) : ℝ) + 1 / 2 := by push_cast; ring
    rw [this, key]
    ring

/-! ### Bezier curves (`chalkboard-geometry/src/curve.rs`) -/

/-- `Point::distance_to` from `lib.rs`, with `f32` arithmetic modelled on `ℝ`. -/
noncomputable def Point.distanceTo (p other : Point) : ℝ :=
  Real.sqrt (((p.x : ℝ) - other.x) ^ 2 + ((p.y : ℝ) - other.y) ^ 2)

/-- `BezierCurve` from `curve.rs`: four control points. -/
structure BezierCurve where
  start : Point
  control1 : Point
  control2 : Point
  stop : Point
deriving DecidableEq, Repr

/-- `BezierCurve::eval_at` from `curve.rs`: the cubic Bernstein polynomial at
`t`, rounded to the nearest integer coordinates. -/
noncomputable def BezierCurve.evalAt (c : BezierCurve) (t : ℝ) : Point :=
  let t2 := t * t
  let t3 := t2 * t
  let mt := 1 - t
  let mt2 := mt * mt
  let mt3 := mt2 * mt
  let x := (c.start.x : ℝ) * mt3 + 3 * (c.control1.x : ℝ) * mt2 * t +
    3 * (c.control2.x : ℝ) * mt * t2 + (c.stop.x : ℝ) * t3
  let y := (c.start.y : ℝ) * mt3 + 3 * (c.control1.y : ℝ) * mt2 * t +
    3 * (c.control2.y : ℝ) * mt * t2 + (c.stop.y : ℝ) * t3
  ⟨rustRound x, rustRound y⟩

/-- The summed control-polygon edge length used by `BezierCurve::num_segments`. -/
noncomputable def BezierCurve.approxLength (c : BezierCurve) : ℝ :=
  c.start.distanceTo c.control1 + c.control1.distanceTo c.control2 +
    c.control2.distanceTo c.stop

/-- `BezierCurve::num_segments` from `curve.rs`: note the final `as usize`
cast truncates (it does not round). -/
noncomputable def BezierCurve.numSegments (c : BezierCurve) : ℕ :=
  rustTruncNat (Real.sqrt (c.approxLength ^ 2 + 800) / 8)

/-- `BezierCurve::into_points` from `curve.rs`, as the list of its yields:
samples the curve at `t = (i + 1) * (1 / num_segments)` for
`i = 0, …, num_segments - 1`. -/
noncomputable def BezierCurve.intoPoints (c : BezierCurve) : List Point :=
  let n := c.numSegments
  let interval := 1 / (n : ℝ)
  (List.range n).map fun (i : ℕ) => c.evalAt (((i : ℕ) + 1 : ℝ) * interval)

theorem three_le_numSegments (c : BezierCurve) : 3 ≤ c.numSegments := by
  have hlen : 0 ≤ c.approxLength := by
    unfold BezierCurve.approxLength Point.distanceTo
    positivity
  have h800 : (800 : ℝ) ≤ c.approxLength ^ 2 + 800 := by nlinarith
  have hsqrt : (24 : ℝ) ≤ Real.sqrt (c.approxLength ^ 2 + 800) := by
    have : (24 : ℝ) = Real.sqrt 576 := by
      rw [show (576 : ℝ) = 24 ^ 2 by norm_num, Real.sqrt_sq (by norm_num)]
    rw [this]
    exact Real.sqrt_le_sqrt (by linarith)
  have h3 : (3 : ℝ) ≤ Real.sqrt (c.approxLength ^ 2 + 800) / 8 := by linarith
  unfold BezierCurve.numSegments rustTruncNat
  have : (3 : ℤ) ≤ ⌊Real.sqrt (c.approxLength ^ 2 + 800) / 8⌋ := by
    exact_mod_cast Int.le_floor.mpr (by exact_mod_cast h3)
  omega

theorem evalAt_one (c : BezierCurve) : c.evalAt 1 = c.stop := by
  unfold BezierCurve.evalAt
  norm_num
  rw [rustRound_intCast, rustRound_intCast]

/-- The degenerate curve whose four control points all sit at the origin. -/
def zeroCurve : BezierCurve := ⟨⟨0, 0⟩, ⟨0, 0⟩, ⟨0, 0⟩, ⟨0, 0⟩⟩

theorem zeroCurve_approxLength : zeroCurve.approxLength = 0 := by
  unfold BezierCurve.approxLength Point.distanceTo zeroCurve
  norm_num

theorem zeroCurve_numSegments : zeroCurve.numSegments = 3 := by
  unfold BezierCurve.numSegments rustTruncNat
  rw [zeroCurve_approxLength]
  norm_num
  have h1 : (24 : ℝ) ≤ Real.sqrt 800 := by
    rw [show (24 : ℝ) = Real.sqrt 576 by
      rw [show (576 : ℝ) = 24 ^ 2 by norm_num, Real.sqrt_sq (by norm_num)]]
    exact Real.sqrt_le_sqrt (by norm_num)
  have h2 : Real.sqrt 800 < 32 := by
    have := Real.sqrt_lt_sqrt (by norm_num : (0:ℝ) ≤ 800) (by norm_num : (800:ℝ) < 1024)
    rwa [show (1024 : ℝ) = 32 ^ 2 by norm_num, Real.sqrt_sq (by norm_num)] at this
  have : ⌊Real.sqrt 800 / 8⌋ = 3 := by
    rw [Int.floor_eq_iff]
    push_cast
    constructor <;> linarith
  rw [this]
  rfl

theorem zeroCurve_evalAt (t : ℝ) : zeroCurve.evalAt t = ⟨0, 0⟩ := by
  have h0 : rustRound 0 = 0 := by
    have := rustRound_intCast 0
    simpa using this
  unfold BezierCurve.evalAt zeroCurve
  norm_num
  rw [h0]

/-- C7 (counterexample): the claim says `into_points()` excludes the curve's
start point, but for the degenerate curve whose control points all coincide at
the origin, every yielded point (there are three) equals the start point. -/
theorem c7_counterexample : zeroCurve.start ∈ zeroCurve.intoPoints := by
  unfold BezierCurve.intoPoints
  rw [zeroCurve_numSegments]
  refine List.mem_map.mpr ⟨0, List.mem_range.mpr (by norm_num), ?_⟩
  rw [zeroCurve_evalAt]
  rfl

/-- C7 (amended): `into_points()` yields a nonempty finite sequence, samples
only at strictly positive parameters `t ≤ 1` (it never takes the `t = 0`
start sample, though a sample's value may coincide with the start point), and
its last element is the curve's own `end` point (the `t = 1` sample). -/
theorem c7_into_points_last_is_end (c : BezierCurve) :
    c.intoPoints ≠ [] ∧
      c.intoPoints.getLast? = some c.stop ∧
      ∀ p ∈ c.intoPoints, ∃ t : ℝ, 0 < t ∧ t ≤ 1 ∧ p = c.evalAt t := by
  have hn := three_le_numSegments c
  have hlen : c.intoPoints.length = c.numSegments := by
    unfold BezierCurve.intoPoints
    simp
  have hne : c.intoPoints ≠ [] := by
    intro h
    rw [h] at hlen
    simp at hlen
    omega
  refine ⟨hne, ?_, ?_⟩
  · have hlast : c.intoPoints.getLast? =
        c.intoPoints[c.intoPoints.length - 1]? := by
      rw [List.getLast?_eq_getElem?]
    rw [hlast, hlen]
    unfold BezierCurve.intoPoints
    have hidx : c.numSegments - 1 < c.numSegments := by omega
    simp only [List.getElem?_map, List.getElem?_range, hidx, if_pos]
    have ht : ((c.numSegments - 1 : ℕ) : ℝ) + 1 = (c.numSegments : ℝ) := by
      have : (1 : ℕ) ≤ c.numSegments := by omega
      push_cast [Nat.cast_sub this]
      ring
    rw [Option.map_some', ht]
    have hn0 : (c.numSegments : ℝ) ≠ 0 := by
      have : (0 : ℕ) < c.numSegments := by omega
      exact_mod_cast this.ne'
    have : (c.numSegments : ℝ) * (1 / (c.numSegments : ℝ)) = 1 := by
      field_simp
    rw [this, evalAt_one]
  · intro p hp
    unfold BezierCurve.intoPoints at hp
    obtain ⟨i, hi, hpi⟩ := List.mem_map.mp hp
    rw [List.mem_range] at hi
    refine ⟨((i : ℝ) + 1) * (1 / (c.numSegments : ℝ)), ?_, ?_, hpi.symm⟩
    · have : (0 : ℝ) < (c.numSegments : ℝ) := by
        exact_mod_cast (by omega : (0 : ℕ) < c.numSegments)
      positivity
    · have hnpos : (0 : ℝ) < (c.numSegments : ℝ) := by
        exact_mod_cast (by omega : (0 : ℕ) < c.numSegments)
      rw [mul_one_div, div_le_one hnpos]
      have : (i : ℝ) + 1 ≤ (c.numSegments : ℝ) := by
        exact_mod_cast Nat.succ_le_of_lt hi
      linarith

/-- C8 (counterexample): for the degenerate all-zero curve, `into_points()`
yields 3 points, but the claimed formula `round(sqrt(approx_len² + 800) / 8)`
gives `round(sqrt(800) / 8) = round(3.535…) = 4`: the source truncates
(`as usize`), it does not round. -/
theorem c8_counterexample :
    zeroCurve.intoPoints.length = 3 ∧
      rustRound (Real.sqrt (zeroCurve.approxLength ^ 2 + 800) / 8) = 4 := by
  constructor
  · unfold BezierCurve.intoPoints
    rw [zeroCurve_numSegments]
    simp
  · rw [zeroCurve_approxLength]
    norm_num
    have h1 : (28 : ℝ) ≤ Real.sqrt 800 := by
      rw [show (28 : ℝ) = Real.sqrt 784 by
        rw [show (784 : ℝ) = 28 ^ 2 by norm_num, Real.sqrt_sq (by norm_num)]]
      exact Real.sqrt_le_sqrt (by norm_num)
    have h2 : Real.sqrt 800 < 36 := by
      have := Real.sqrt_lt_sqrt (by norm_num : (0:ℝ) ≤ 800) (by norm_num : (800:ℝ) < 1296)
      rwa [show (1296 : ℝ) = 36 ^ 2 by norm_num, Real.sqrt_sq (by norm_num)] at this
    unfold rustRound
    rw [if_pos (by positivity)]
    rw [Int.floor_eq_iff]
    push_cast
    constructor <;> linarith

/-- C8 (amended): the number of points yielded by `into_points()` equals the
**truncation** (floor) of `sqrt(approx_len² + 800) / 8`, where `approx_len`
is the sum of the three control-polygon edge lengths; the spec's `round` is a
truncation in the source (`as usize`). -/
theorem c8_num_points_formula (c : BezierCurve) :
    (c.intoPoints.length : ℤ) =
      ⌊Real.sqrt ((c.start.distanceTo c.control1 + c.control1.distanceTo c.control2 +
        c.control2.distanceTo c.stop) ^ 2 + 800) / 8⌋ := by
  have hlen : c.intoPoints.length = c.numSegments := by
    unfold BezierCurve.intoPoints
    simp
  rw [hlen]
  unfold BezierCurve.numSegments rustTruncNat BezierCurve.approxLength
  have hfloor : (0 : ℤ) ≤ ⌊Real.sqrt ((c.start.distanceTo c.control1 +
      c.control1.distanceTo c.control2 + c.control2.distanceTo c.stop) ^ 2 + 800) / 8⌋ := by
    apply Int.floor_nonneg.mpr
    positivity
  omega

/-! ### Polylines and the stroke outline (`lib.rs`, `outline.rs`) -/

/-- `polyline` from `lib.rs`: the list of lines connecting consecutive points
(`n` points yield `n - 1` lines). -/
def polyline (pts : List Point) : List Line :=
  List.zipWith Line.fromPoints pts pts.tail

/-- Modelled from the spec: componentwise point addition.  `outline.rs` uses
`Point + Point`, whose `impl` is not among the provided sources. -/
def Point.add (p q : Point) : Point := ⟨p.x + q.x, p.y + q.y⟩

/-- Modelled from the spec: scalar multiplication of a point by an `i32`.
`outline.rs` uses `Point * i32`, whose `impl` is not among the provided
sources; the outline construction requires it to scale the offset vector by
the `±1` multiplier. -/
def Point.mulScalar (p : Point) (m : ℤ) : Point := ⟨p.x * m, p.y * m⟩

/-- Modelled from the spec: two-argument arctangent with the standard
`atan2(y, x)` convention (`atan2(0, 0) = 0`), as used by the crate's own
backend code to compute a line's direction angle. -/
noncomputable def atan2 (y x : ℝ) : ℝ :=
  if 0 < x then Real.arctan (y / x)
  else if x < 0 then
    (if 0 ≤ y then Real.arctan (y / x) + Real.pi else Real.arctan (y / x) - Real.pi)
  else if 0 < y then Real.pi / 2
  else if y < 0 then -(Real.pi / 2)
  else 0

/-- Modelled from the spec: `Line::angle`, called by `outline.rs` but not
defined in the provided sources.  The spec's "direction angle" of a segment
is `atan2(y2 - y1, x2 - x1)`. -/
noncomputable def Line.angle (l : Line) : ℝ :=
  atan2 ((l.y2 - l.y1 : ℤ) : ℝ) ((l.x2 - l.x1 : ℤ) : ℝ)

/-- `point_change` from `outline.rs`: rotate the segment's direction angle by
a quarter turn (`Angle::QUARTER_CIRCLE`, the `f32` constant `FRAC_PI_2`
modelled as `π/2`) and scale by the **full** line width `lw`; each component
is truncated by the `as i32` cast. -/
noncomputable def pointChange (line : Line) (lw : ℤ) : Point :=
  let angle := line.angle + Real.pi / 2
  ⟨rustTruncInt (Real.cos angle * (lw : ℝ)), rustTruncInt (Real.sin angle * (lw : ℝ))⟩

/-- `outline_inner` from `outline.rs`, as the list of the `Outliner`
iterator's yields: for the first line both its first endpoint and (via the
map) its second endpoint are emitted, displaced by
`point_change(line) * multiplier`; for every later line only its second
endpoint is. -/
noncomputable def outlineInner (pts : List Point) (lineWidth mult : ℤ) : List Point :=
  match polyline pts with
  | [] => []
  | l0 :: rest =>
    (l0.point1.add ((pointChange l0 lineWidth).mulScalar mult)) ::
      (l0 :: rest).map fun l => l.point2.add ((pointChange l lineWidth).mulScalar mult)

/-- `outline` from `outline.rs`: the forward pass with multiplier `1` chained
with the backward pass (reversed points) with multiplier `-1`. -/
noncomputable def outline (pts : List Point) (lineWidth : ℕ) : List Point :=
  outlineInner pts (lineWidth : ℤ) 1 ++ outlineInner pts.reverse (lineWidth : ℤ) (-1)

theorem Point.mulScalar_one (p : Point) : p.mulScalar 1 = p := by
  unfold Point.mulScalar
  simp

theorem mem_outlineInner (pts : List Point) (w m : ℤ) (p : Point)
    (hp : p ∈ outlineInner pts w m) :
    ∃ l ∈ polyline pts,
      p = l.point1.add ((pointChange l w).mulScalar m) ∨
        p = l.point2.add ((pointChange l w).mulScalar m) := by
  unfold outlineInner at hp
  rcases h : polyline pts with _ | ⟨l0, rest⟩
  · rw [h] at hp
    simp at hp
  · rw [h] at hp
    rcases List.mem_cons.mp hp with h1 | h2
    · exact ⟨l0, List.mem_cons_self _ _, Or.inl h1⟩
    · obtain ⟨l, hl, hleq⟩ := List.mem_map.mp h2
      exact ⟨l, hl, Or.inr hleq.symm⟩

/-- C1 (amended): every point emitted by `outline()` is a polyline vertex
(an endpoint of one of the polyline's segments — of the reversed polyline on
the backward pass) displaced along the perpendicular of that segment (its
direction angle rotated by a quarter turn) by exactly the **full** line width
`w` — not `w/2` — with each offset component truncated to an integer;
positively on the forward pass and negated on the backward pass. -/
theorem c1_outline_offsets (pts : List Point) (w : ℕ) (p : Point)
    (hp : p ∈ outline pts w) :
    (∃ l ∈ polyline pts,
        p = l.point1.add (pointChange l (w : ℤ)) ∨
          p = l.point2.add (pointChange l (w : ℤ))) ∨
      (∃ l ∈ polyline pts.reverse,
        p = l.point1.add ((pointChange l (w : ℤ)).mulScalar (-1)) ∨
          p = l.point2.add ((pointChange l (w : ℤ)).mulScalar (-1))) := by
  unfold outline at hp
  rcases List.mem_append.mp hp with h | h
  · left
    obtain ⟨l, hl, hcase⟩ := mem_outlineInner _ _ _ _ h
    rw [Point.mulScalar_one] at hcase
    exact ⟨l, hl, hcase⟩
  · right
    exact mem_outlineInner _ _ _ _ h

theorem rustTruncInt_intCast (n : ℤ) : rustTruncInt (n : ℝ) = n := by
  unfold rustTruncInt
  rcases le_or_lt 0 (n : ℝ) with h | h
  · rw [if_pos h, Int.floor_intCast]
  · rw [if_neg (not_le.mpr h)]
    rw [show (-(n : ℝ)) = ((-n : ℤ) : ℝ) by push_cast; ring, Int.floor_intCast]
    ring

theorem angle_example_fwd : Line.angle ⟨0, 0, 10, 0⟩ = 0 := by
  unfold Line.angle atan2
  norm_num [Real.arctan_zero]

theorem angle_example_bwd : Line.angle ⟨10, 0, 0, 0⟩ = Real.pi := by
  unfold Line.angle atan2
  norm_num [Real.arctan_zero]

theorem rustTruncInt_zero : rustTruncInt 0 = 0 := by
  simpa using rustTruncInt_intCast 0

theorem rustTruncInt_four : rustTruncInt 4 = 4 := by
  simpa using rustTruncInt_intCast 4

theorem rustTruncInt_neg_four : rustTruncInt (-4) = -4 := by
  simpa using rustTruncInt_intCast (-4)

theorem pointChange_example_fwd : pointChange ⟨0, 0, 10, 0⟩ 4 = ⟨0, 4⟩ := by
  simp only [pointChange, angle_example_fwd, zero_add, Real.cos_pi_div_two,
    Real.sin_pi_div_two]
  norm_num [rustTruncInt_zero, rustTruncInt_four]

theorem pointChange_example_bwd : pointChange ⟨10, 0, 0, 0⟩ 4 = ⟨0, -4⟩ := by
  simp only [pointChange, angle_example_bwd]
  norm_num [Real.cos_add, Real.sin_add, Real.sin_pi, Real.cos_pi, Real.sin_pi_div_two,
    Real.cos_pi_div_two, rustTruncInt_zero, rustTruncInt_neg_four]

theorem outline_example_eval :
    outline [⟨0, 0⟩, ⟨10, 0⟩] 4 = [⟨0, 4⟩, ⟨10, 4⟩, ⟨10, 4⟩, ⟨0, 4⟩] := by
  unfold outline outlineInner
  rw [show (((4 : ℕ) : ℤ)) = (4 : ℤ) by norm_num]
  rw [show ([(⟨0, 0⟩ : Point), ⟨10, 0⟩].reverse) = [(⟨10, 0⟩ : Point), ⟨0, 0⟩] from rfl]
  rw [show polyline [(⟨0, 0⟩ : Point), ⟨10, 0⟩] = [⟨0, 0, 10, 0⟩] from rfl]
  rw [show polyline [(⟨10, 0⟩ : Point), ⟨0, 0⟩] = [⟨10, 0, 0, 0⟩] from rfl]
  simp only [List.map_cons, List.map_nil]
  rw [pointChange_example_fwd, pointChange_example_bwd]
  rfl

/-- C1 (counterexample): for the two-point polyline `(0,0)–(10,0)` with line
width 4, `outline()` emits the point `(0,4)`, displaced from the vertex
`(0,0)` by the full width 4 along the perpendicular; no vertex of either pass
displaced by `w/2 = 2` along its segment's perpendicular (with either sign)
yields `(0,4)`, so the claim's `w/2` offset is false on the code. -/
theorem c1_counterexample :
    (⟨0, 4⟩ : Point) ∈ outline [⟨0, 0⟩, ⟨10, 0⟩] 4 ∧
      ∀ l ∈ polyline [(⟨0, 0⟩ : Point), ⟨10, 0⟩] ++
          polyline ([(⟨0, 0⟩ : Point), ⟨10, 0⟩].reverse),
        ∀ v ∈ [l.point1, l.point2], ∀ s ∈ ([1, -1] : List ℝ),
          ¬(((0 : ℝ) = (v.x : ℝ) + s * ((4 : ℝ) / 2 * Real.cos (l.angle + Real.pi / 2))) ∧
            ((4 : ℝ) = (v.y : ℝ) + s * ((4 : ℝ) / 2 * Real.sin (l.angle + Real.pi / 2)))) := by
  constructor
  · rw [outline_example_eval]
    exact List.mem_cons_self _ _
  · intro l hl v hv s hs
    rw [show polyline [(⟨0, 0⟩ : Point), ⟨10, 0⟩] = [⟨0, 0, 10, 0⟩] from rfl,
      show polyline ([(⟨0, 0⟩ : Point), ⟨10, 0⟩].reverse) = [⟨10, 0, 0, 0⟩] from rfl] at hl
    rintro ⟨-, hy⟩
    have hs' : s = 1 ∨ s = -1 := by simpa using hs
    rcases List.mem_append.mp hl with h | h <;> rw [List.mem_singleton] at h <;> subst h
    · have hvy : (v.y : ℝ) = 0 := by
        rcases List.mem_cons.mp hv with h' | h'
        · subst h'
          norm_num [Line.point1]
        · rw [List.mem_singleton] at h'
          subst h'
          norm_num [Line.point2]
      rw [angle_example_fwd, zero_add, Real.sin_pi_div_two, hvy] at hy
      rcases hs' with h | h <;> subst h <;> norm_num at hy
    · have hvy : (v.y : ℝ) = 0 := by
        rcases List.mem_cons.mp hv with h' | h'
        · subst h'
          norm_num [Line.point1]
        · rw [List.mem_singleton] at h'
          subst h'
          norm_num [Line.point2]
      rw [angle_example_bwd] at hy
      rw [show Real.sin (Real.pi + Real.pi / 2) = -1 by
        norm_num [Real.sin_add, Real.sin_pi, Real.cos_pi, Real.sin_pi_div_two,
          Real.cos_pi_div_two]] at hy
      rw [hvy] at hy
      rcases hs' with h | h <;> subst h <;> norm_num at hy

/-- C1 (witness): the amended offset characterisation instantiated at the
polyline `(0,0)–(10,0)` with width 4 and the emitted point `(0,4)`. -/
theorem c1_outline_offsets_witness :
    (⟨0, 4⟩ : Point) ∈ outline [⟨0, 0⟩, ⟨10, 0⟩] 4 ∧
      ((∃ l ∈ polyline [(⟨0, 0⟩ : Point), ⟨10, 0⟩],
          (⟨0, 4⟩ : Point) = l.point1.add (pointChange l ((4 : ℕ) : ℤ)) ∨
            (⟨0, 4⟩ : Point) = l.point2.add (pointChange l ((4 : ℕ) : ℤ))) ∨
        (∃ l ∈ polyline ([(⟨0, 0⟩ : Point), ⟨10, 0⟩].reverse),
          (⟨0, 4⟩ : Point) = l.point1.add ((pointChange l ((4 : ℕ) : ℤ)).mulScalar (-1)) ∨
            (⟨0, 4⟩ : Point) = l.point2.add ((pointChange l ((4 : ℕ) : ℤ)).mulScalar (-1)))) := by
  have hmem : (⟨0, 4⟩ : Point) ∈ outline [⟨0, 0⟩, ⟨10, 0⟩] 4 := by
    rw [outline_example_eval]
    exact List.mem_cons_self _ _
  exact ⟨hmem, c1_outline_offsets _ _ _ hmem⟩

/-! ### Geometric arcs (`arc.rs`)

`Angle` (from `angle.rs`) wraps a non-NaN `f32` in radians; it is modelled
here as a plain real number.  `end` is a reserved word in Lean, so the arc's
`end` angle field is named `stop`. -/

/-- `GeometricArc` from `arc.rs`: bounding rectangle corners plus the start
and end angles. -/
structure GeometricArc where
  x1 : ℤ
  y1 : ℤ
  x2 : ℤ
  y2 : ℤ
  start : ℝ
  stop : ℝ

/-- `GeometricArc::into_curve` from `arc.rs`, verbatim: in the source `b` is
bound to `self.start.radians()` (not `self.end`), and the final `y2` is
computed as `xc + rsinb` (not `yc + rsinb`). -/
noncomputable def GeometricArc.intoCurve (arc : GeometricArc) : BezierCurve :=
  let xc := ((arc.x2 : ℝ) - arc.x1) / 2
  let yc := ((arc.y2 : ℝ) - arc.y1) / 2
  let radius := (arc.x2 : ℝ) - xc
  let a := arc.start
  let b := arc.start
  let rsina := radius * Real.sin a
  let rcosa := radius * Real.cos a
  let rsinb := radius * Real.sin b
  let rcosb := radius * Real.cos b
  let h := 4 / 3 * Real.tan ((b - a) / 4)
  let x1 := xc + rcosa
  let y1 := yc + rsina
  let ctx1 := xc + rcosa - h * rsina
  let cty1 := yc + rsina + h * rcosa
  let ctx2 := xc + rcosb + h * rsinb
  let cty2 := yc + rsinb - h * rcosb
  let x2 := xc + rcosb
  let y2 := xc + rsinb
  ⟨⟨rustRound x1, rustRound y1⟩, ⟨rustRound ctx1, rustRound cty1⟩,
    ⟨rustRound ctx2, rustRound cty2⟩, ⟨rustRound x2, rustRound y2⟩⟩

theorem rustRound_five : rustRound 5 = 5 := by
  simpa using rustRound_intCast 5

theorem rustRound_ten : rustRound 10 = 10 := by
  simpa using rustRound_intCast 10

/-- C5: evaluating `into_curve` on the quarter-circle arc with bounding
rectangle `(0,0)–(10,10)`, start angle `0` and end angle `π/2`.  Because the
source binds `b` to the **start** angle, the angle span is `0`, the tangent
length is `h = (4/3)·tan(0) = 0`, and the produced curve degenerates to the
start-angle point `(10, 5)` repeated four times; the claim instead requires
the end point at the end angle — center `(5,5)` plus radius `5` at angle
`π/2`, i.e. `(5, 10)`. -/
theorem c5_into_curve_failing_input :
    GeometricArc.intoCurve ⟨0, 0, 10, 10, 0, Real.pi / 2⟩ =
        ⟨⟨10, 5⟩, ⟨10, 5⟩, ⟨10, 5⟩, ⟨10, 5⟩⟩ ∧
      (⟨rustRound (5 + 5 * Real.cos (Real.pi / 2)),
          rustRound (5 + 5 * Real.sin (Real.pi / 2))⟩ : Point) = ⟨5, 10⟩ ∧
      (⟨10, 5⟩ : Point) ≠ ⟨5, 10⟩ := by
  refine ⟨?_, ?_, by decide⟩
  · simp only [GeometricArc.intoCurve]
    norm_num [Real.sin_zero, Real.cos_zero, Real.tan_zero, rustRound_five, rustRound_ten]
  · rw [Real.cos_pi_div_two, Real.sin_pi_div_two]
    norm_num [rustRound_five, rustRound_ten]

/-! ### Regions (`region.rs`)

`region.rs` is generic over `T: Bounded + Copy + Ord`; its concrete use in
the crate is with `i32` coordinates, modelled as `ℤ` with the explicit `i32`
range endpoints.  A euclid `Box2D` holds a `min` and a `max` point; the four
coordinates are flattened into one structure here. -/

/-- A euclid `Box2D` over `i32`: `min` and `max` corner coordinates. -/
structure Box2D where
  minX : ℤ
  minY : ℤ
  maxX : ℤ
  maxY : ℤ
deriving DecidableEq, Repr

/-- `i32::min_value()`. -/
def int32Min : ℤ := -(2 ^ 31)

/-- `i32::max_value()`. -/
def int32Max : ℤ := 2 ^ 31 - 1

/-- `default_bounds` from `region.rs`, verbatim for `T = i32`:
`Box2D::new(Point2D::new(MIN, MIN), Point2D::new(MAX, MAX))` — the box that
covers the whole coordinate space. -/
def defaultBounds : Box2D := ⟨int32Min, int32Min, int32Max, int32Max⟩

/-- `add_to_bounds` from `region.rs`: grow `bounds` just enough to cover
`new`. -/
def addToBounds (bounds new : Box2D) : Box2D :=
  let b1 := if new.minX < bounds.minX then { bounds with minX := new.minX } else bounds
  let b2 := if new.minY < b1.minY then { b1 with minY := new.minY } else b1
  let b3 := if new.maxX > b2.maxX then { b2 with maxX := new.maxX } else b2
  if new.maxY > b3.maxY then { b3 with maxY := new.maxY } else b3

/-- `Region` from `region.rs`. -/
structure Region where
  bounds : Box2D
  boxes : List Box2D
deriving DecidableEq, Repr

/-- `Region::default` from `region.rs`. -/
def Region.deflt : Region := ⟨defaultBounds, []⟩

/-- `Region::add` from `region.rs`: `accomodate` (grow the bounds) then push
the box. -/
def Region.add (r : Region) (box : Box2D) : Region :=
  ⟨addToBounds r.bounds box, r.boxes ++ [box]⟩

/-- Modelled from the spec: the union (smallest common cover) of two
axis-aligned boxes. -/
def boxUnion (a b : Box2D) : Box2D :=
  ⟨min a.minX b.minX, min a.minY b.minY, max a.maxX b.maxX, max a.maxY b.maxY⟩

/-- Modelled from the spec: the minimal axis-aligned box covering every box
of a nonempty collection. -/
def minimalCover (b : Box2D) (bs : List Box2D) : Box2D :=
  bs.foldl boxUnion b

/-- C6: evaluating `Region::add` on a default region and the box
`(0,0)–(1,1)`.  `default_bounds` is the all-covering box
`((-2³¹,-2³¹),(2³¹-1,2³¹-1))` and `add_to_bounds` only ever expands, so the
region's bounds stays the all-covering box; the claim instead requires the
minimal covering box of the boxes added so far, which is `(0,0)–(1,1)`. -/
theorem c6_region_bounds_failing_input :
    (Region.deflt.add ⟨0, 0, 1, 1⟩).bounds = defaultBounds ∧
      minimalCover ⟨0, 0, 1, 1⟩ [] = ⟨0, 0, 1, 1⟩ ∧
      defaultBounds ≠ ⟨0, 0, 1, 1⟩ := by
  decide

/-! ### Polygons and edges (`polygon.rs`, `util.rs`)

The polygon layer works in `f32` device space, modelled on `ℝ`. -/

/-- `f32::EPSILON`, exactly `2⁻²³`. -/
noncomputable def f32Epsilon : ℝ := (2 : ℝ) ^ (-23 : ℤ)

/-- `approx_eq` from `util.rs`: `(a - b).abs() < Num::epsilon()`. -/
def approxEq (a b : ℝ) : Prop := |a - b| < f32Epsilon

noncomputable instance (a b : ℝ) : Decidable (approxEq a b) := by
  unfold approxEq
  infer_instance

theorem f32Epsilon_pos : 0 < f32Epsilon := by
  unfold f32Epsilon
  positivity

/-- A point in `f32` device space (euclid `Point2D<f32>`). -/
structure Point2 where
  x : ℝ
  y : ℝ

/-- A lyon_geom `Line`: an anchor point and a direction vector. -/
structure LineV where
  point : Point2
  vector : Point2

/-- `Direction` from `polygon.rs`. -/
inductive Direction where
  | forward
  | backwards

/-- `Edge` from `polygon.rs`. -/
structure Edge where
  line : LineV
  top : ℝ
  bottom : ℝ
  direction : Direction

/-- `Edge::new` from `polygon.rs`: anchor at `p1` with vector `p2 - p1`, and
`top`/`bottom` the smaller/larger of the two `y` coordinates. -/
noncomputable def Edge.new (p1 p2 : Point2) : Edge :=
  { line := ⟨p1, ⟨p2.x - p1.x, p2.y - p1.y⟩⟩
    top := if p1.y < p2.y then p1.y else p2.y
    bottom := if p1.y < p2.y then p2.y else p1.y
    direction := .forward }

/-- `Polygon` from `polygon.rs`: a collection of edges. -/
structure Polygon where
  edges : List Edge

/-- `Polygon::add_edge` from `polygon.rs`: push the edge only if
`edge.line.vector.y.abs() >= f32::EPSILON`. -/
noncomputable def Polygon.addEdge (poly : Polygon) (p1 p2 : Point2) : Polygon :=
  let edge := Edge.new p1 p2
  if f32Epsilon ≤ |edge.line.vector.y| then ⟨poly.edges ++ [edge]⟩ else poly

/-- The `FromIterator<Edge<f32>>` impl for `Polygon` in `polygon.rs`: keep
only the edges with `!approx_eq(edge.line.vector.y, 0.0)`. -/
noncomputable def polygonFromEdges (l : List Edge) : Polygon :=
  ⟨l.filter fun edge => decide (¬ approxEq edge.line.vector.y 0)⟩

/-- A flattened lyon `PathEvent`: after lyon's `flattened(tolerance)`
adapter only `Begin`, `Line` and `End` events remain (the source marks the
curve events `unreachable!`).  `end` is reserved in Lean, so the `End` event
is named `stop`. -/
inductive PathEvent where
  | begin (ptAt : Point2)
  | line (ptFrom : Point2) (ptTo : Point2)
  | stop (last : Point2) (first : Point2) (close : Bool)

/-- `Polygon::from_iter_with_tolerance` from `polygon.rs`, applied to the
already-flattened event stream: `Begin` yields nothing, `Line { from, to }`
yields `Edge::new(from, to)`, `End { last, first, .. }` yields
`Edge::new(last, first)`, and the result is collected through the filtering
`FromIterator<Edge<f32>>` impl. -/
noncomputable def fromFlattenedEvents (l : List PathEvent) : Polygon :=
  polygonFromEdges (l.filterMap fun ev =>
    match ev with
    | .begin _ => none
    | .line f t => some (Edge.new f t)
    | .stop last first _ => some (Edge.new last first))

/-- Folding `add_edge` over a list of point pairs, starting from the default
(empty) polygon. -/
noncomputable def polygonOfPairs (ops : List (Point2 × Point2)) : Polygon :=
  ops.foldl (fun poly pq => poly.addEdge pq.1 pq.2) ⟨[]⟩

/-- Every edge a fold of `add_edge` stores has vertical extent at least
`f32::EPSILON`. -/
theorem addEdge_route_extent (ops : List (Point2 × Point2)) (e : Edge)
    (he : e ∈ (polygonOfPairs ops).edges) : f32Epsilon ≤ |e.line.vector.y| := by
  suffices h : ∀ (ops : List (Point2 × Point2)) (init : Polygon),
      (∀ e' ∈ init.edges, f32Epsilon ≤ |e'.line.vector.y|) →
        ∀ e' ∈ (ops.foldl (fun poly pq => poly.addEdge pq.1 pq.2) init).edges,
          f32Epsilon ≤ |e'.line.vector.y| by
    exact h ops ⟨[]⟩ (by intro e' h'; simp at h') e he
  intro ops
  induction ops with
  | nil =>
    intro init hinit e' he'
    exact hinit e' he'
  | cons pq rest ih =>
    intro init hinit e' he'
    rw [List.foldl_cons] at he'
    refine ih (init.addEdge pq.1 pq.2) ?_ e' he'
    intro e'' he''
    unfold Polygon.addEdge at he''
    by_cases hc : f32Epsilon ≤ |(Edge.new pq.1 pq.2).line.vector.y|
    · rw [if_pos hc] at he''
      rcases List.mem_append.mp he'' with h | h
      · exact hinit _ h
      · rw [List.mem_singleton] at h
        subst h
        exact hc
    · rw [if_neg hc] at he''
      exact hinit _ he''

/-- Every edge the filtering `FromIterator` impl keeps has vertical extent at
least `f32::EPSILON`. -/
theorem fromEdges_route_extent (l : List Edge) (e : Edge)
    (he : e ∈ (polygonFromEdges l).edges) : f32Epsilon ≤ |e.line.vector.y| := by
  unfold polygonFromEdges at he
  have := (List.mem_filter.mp he).2
  rw [decide_eq_true_eq] at this
  unfold approxEq at this
  rw [sub_zero] at this
  exact le_of_not_lt this

theorem fromEvents_route_extent (l : List PathEvent) (e : Edge)
    (he : e ∈ (fromFlattenedEvents l).edges) : f32Epsilon ≤ |e.line.vector.y| := by
  unfold fromFlattenedEvents at he
  exact fromEdges_route_extent _ _ he

/-- C9: however a `Polygon` is built — by `add_edge` calls, by collecting
edges, or by collecting a flattened path-event stream — every stored edge
has vertical extent at least `f32::EPSILON`; in particular its endpoints
never have equal `y` coordinates (the vector's `y` component is nonzero). -/
theorem c9_polygon_drops_horizontal_edges :
    (∀ (ops : List (Point2 × Point2)) (e : Edge), e ∈ (polygonOfPairs ops).edges →
        f32Epsilon ≤ |e.line.vector.y| ∧ e.line.vector.y ≠ 0) ∧
      (∀ (l : List Edge) (e : Edge), e ∈ (polygonFromEdges l).edges →
        f32Epsilon ≤ |e.line.vector.y| ∧ e.line.vector.y ≠ 0) ∧
      (∀ (l : List PathEvent) (e : Edge), e ∈ (fromFlattenedEvents l).edges →
        f32Epsilon ≤ |e.line.vector.y| ∧ e.line.vector.y ≠ 0) := by
  have key : ∀ e : Edge, f32Epsilon ≤ |e.line.vector.y| → e.line.vector.y ≠ 0 := by
    intro e h h0
    rw [h0] at h
    simp at h
    exact absurd h (not_le.mpr f32Epsilon_pos)
  exact ⟨fun ops e he => ⟨addEdge_route_extent ops e he, key e (addEdge_route_extent ops e he)⟩,
    fun l e he => ⟨fromEdges_route_extent l e he, key e (fromEdges_route_extent l e he)⟩,
    fun l e he => ⟨fromEvents_route_extent l e he, key e (fromEvents_route_extent l e he)⟩⟩

theorem example_edge_mem :
    Edge.new ⟨0, 0⟩ ⟨1, 1⟩ ∈ (polygonOfPairs [(⟨0, 0⟩, ⟨1, 1⟩)]).edges := by
  unfold polygonOfPairs
  rw [List.foldl_cons, List.foldl_nil]
  unfold Polygon.addEdge
  rw [if_pos]
  · exact List.mem_append.mpr (Or.inr (List.mem_singleton.mpr rfl))
  · unfold Edge.new f32Epsilon
    norm_num

/-- C9 (witness): the diagonal edge `(0,0)–(1,1)` stored through `add_edge`
has vertical extent at least `f32::EPSILON` and nonzero vertical extent. -/
theorem c9_polygon_drops_horizontal_edges_witness :
    f32Epsilon ≤ |(Edge.new ⟨0, 0⟩ ⟨1, 1⟩).line.vector.y| ∧
      (Edge.new ⟨0, 0⟩ ⟨1, 1⟩).line.vector.y ≠ 0 :=
  c9_polygon_drops_horizontal_edges.1 [(⟨0, 0⟩, ⟨1, 1⟩)] _ example_edge_mem

/-- A lyon_geom `LineEquation`: the coefficients of `ax + by + c = 0`. -/
structure LineEquation where
  a : ℝ
  b : ℝ
  c : ℝ

/-- lyon_geom `Line::equation`: `a = -vector.y`, `b = vector.x`,
`c = -(a·point.x + b·point.y)`, normalized by `1 / sqrt(a² + b²)`
(`LineEquation::new`). -/
noncomputable def LineV.equation (l : LineV) : LineEquation :=
  let a := -l.vector.y
  let b := l.vector.x
  let c := -(a * l.point.x + b * l.point.y)
  let div := 1 / Real.sqrt (a * a + b * b)
  ⟨a * div, b * div, c * div⟩

/-- lyon_geom `LineEquation::solve_x_for_y`: `None` when `a = 0`, otherwise
the `x` with `ax + by + c = 0`. -/
noncomputable def LineEquation.solveXForY (eqn : LineEquation) (y : ℝ) : Option ℝ :=
  if eqn.a = 0 then none else some ((eqn.b * y + eqn.c) / (-eqn.a))

/-- `Edge::points` from `polygon.rs`, with the `panic!("horizontal line")`
branch and the two `.unwrap()` failure paths modelled as `none`. -/
noncomputable def Edge.points (e : Edge) : Option (Point2 × Point2) :=
  if approxEq e.line.vector.y 0 then none
  else
    match e.line.equation.solveXForY e.top, e.line.equation.solveXForY e.bottom with
    | some xt, some xb => some (⟨xt, e.top⟩, ⟨xb, e.bottom⟩)
    | _, _ => none

theorem solveXForY_isSome_of_vy_ne_zero (l : LineV) (hvy : l.vector.y ≠ 0) (y : ℝ) :
    (l.equation.solveXForY y).isSome = true := by
  unfold LineV.equation LineEquation.solveXForY
  simp only
  rw [if_neg]
  · rfl
  · intro h0
    have hsum : 0 < (-l.vector.y) * (-l.vector.y) + l.vector.x * l.vector.x := by
      have h1 : 0 < (-l.vector.y) * (-l.vector.y) := by
        have := mul_self_pos.mpr (neg_ne_zero.mpr hvy)
        exact this
      nlinarith [mul_self_nonneg l.vector.x]
    have hdiv : 0 < 1 / Real.sqrt ((-l.vector.y) * (-l.vector.y) + l.vector.x * l.vector.x) := by
      have := Real.sqrt_pos.mpr hsum
      positivity
    have := mul_ne_zero (neg_ne_zero.mpr hvy) (ne_of_gt hdiv)
    exact this h0

theorem points_isSome_of_extent (e : Edge) (he : f32Epsilon ≤ |e.line.vector.y|) :
    (Edge.points e).isSome = true := by
  have hvy : e.line.vector.y ≠ 0 := by
    intro h0
    rw [h0] at he
    simp at he
    exact absurd he (not_le.mpr f32Epsilon_pos)
  unfold Edge.points
  rw [if_neg]
  · have h1 := solveXForY_isSome_of_vy_ne_zero e.line hvy e.top
    have h2 := solveXForY_isSome_of_vy_ne_zero e.line hvy e.bottom
    rcases Option.isSome_iff_exists.mp h1 with ⟨xt, hxt⟩
    rcases Option.isSome_iff_exists.mp h2 with ⟨xb, hxb⟩
    rw [hxt, hxb]
    rfl
  · unfold approxEq
    rw [sub_zero]
    exact not_lt.mpr he

/-- C10: for every edge stored in a `Polygon` (through any of the three
construction routes), `Edge::points` returns a value: the "horizontal line"
panic branch and the `solve_x_for_y` unwraps are unreachable under the
polygon invariant that stored edges have vertical extent at least
`f32::EPSILON`. -/
theorem c10_polygon_edge_points_never_panic :
    (∀ (ops : List (Point2 × Point2)) (e : Edge), e ∈ (polygonOfPairs ops).edges →
        (Edge.points e).isSome = true) ∧
      (∀ (l : List Edge) (e : Edge), e ∈ (polygonFromEdges l).edges →
        (Edge.points e).isSome = true) ∧
      (∀ (l : List PathEvent) (e : Edge), e ∈ (fromFlattenedEvents l).edges →
        (Edge.points e).isSome = true) :=
  ⟨fun ops e he => points_isSome_of_extent e (addEdge_route_extent ops e he),
    fun l e he => points_isSome_of_extent e (fromEdges_route_extent l e he),
    fun l e he => points_isSome_of_extent e (fromEvents_route_extent l e he)⟩

/-- C10 (witness): `Edge::points` succeeds on the diagonal edge `(0,0)–(1,1)`
stored through `add_edge`. -/
theorem c10_polygon_edge_points_never_panic_witness :
    (Edge.points (Edge.new ⟨0, 0⟩ ⟨1, 1⟩)).isSome = true :=
  c10_polygon_edge_points_never_panic.1 [(⟨0, 0⟩, ⟨1, 1⟩)] _ example_edge_mem

/-! ### Paths and the double-ended point stitcher (`path.rs`)

`PathSegmentsToPoints` is a double-ended iterator; its state is modelled
explicitly, and the embedded bezier iterators (`B`) are modelled as the lists
of their remaining yields, consumed from the front or the back.  `next` and
`next_back` share one implementation, `next_impl(from_front, ..)`, whose
field accessors swap the front/back roles; the accessors below mirror that
swap. -/

/-- `PathSegmentType` from `path.rs`. -/
inductive PathSegmentType where
  | straightLine
  | bezierCurve (ctx1 cty1 ctx2 cty2 : ℤ)
deriving DecidableEq, Repr

/-- `PathSegment` from `path.rs`. -/
structure PathSegment where
  x : ℤ
  y : ℤ
  ty : PathSegmentType
deriving DecidableEq, Repr

/-- The vertex point of a path segment. -/
def PathSegment.point (s : PathSegment) : Point := ⟨s.x, s.y⟩

/-- The state of a `PathSegmentsToPoints` iterator. -/
structure StitchState where
  inner : List PathSegment
  frontBez : Option (List Point)
  backBez : Option (List Point)
  frontPrev : Option PathSegment
  backPrev : Option PathSegment

/-- Take one element from the given end of a list (`Iterator::next` when
`fromFront`, `DoubleEndedIterator::next_back` otherwise). -/
def popEnd {α : Type} (fromFront : Bool) (l : List α) : Option (α × List α) :=
  if fromFront then
    match l with
    | [] => none
    | a :: r => some (a, r)
  else
    match l.getLast? with
    | none => none
    | some a => some (a, l.dropLast)

/-- `front_bezier_curve_iter(from_front)` from `path.rs`. -/
def StitchState.fbez (ff : Bool) (s : StitchState) : Option (List Point) :=
  if ff then s.frontBez else s.backBez

/-- `back_bezier_curve_iter(from_front)` from `path.rs`. -/
def StitchState.bbez (ff : Bool) (s : StitchState) : Option (List Point) :=
  if ff then s.backBez else s.frontBez

/-- `front_prev_segment(from_front)` from `path.rs`. -/
def StitchState.fprev (ff : Bool) (s : StitchState) : Option PathSegment :=
  if ff then s.frontPrev else s.backPrev

/-- `back_prev_segment(from_front)` from `path.rs`. -/
def StitchState.bprev (ff : Bool) (s : StitchState) : Option PathSegment :=
  if ff then s.backPrev else s.frontPrev

def StitchState.setFbez (ff : Bool) (s : StitchState) (v : Option (List Point)) :
    StitchState :=
  if ff then { s with frontBez := v } else { s with backBez := v }

def StitchState.setBbez (ff : Bool) (s : StitchState) (v : Option (List Point)) :
    StitchState :=
  if ff then { s with backBez := v } else { s with frontBez := v }

def StitchState.setFprev (ff : Bool) (s : StitchState) (v : Option PathSegment) :
    StitchState :=
  if ff then { s with frontPrev := v } else { s with backPrev := v }

def StitchState.setBprev (ff : Bool) (s : StitchState) (v : Option PathSegment) :
    StitchState :=
  if ff then { s with backPrev := v } else { s with frontPrev := v }

def StitchState.setInner (s : StitchState) (l : List PathSegment) : StitchState :=
  { s with inner := l }

theorem popEnd_length {α : Type} {ff : Bool} {l : List α} {a : α} {r : List α}
    (h : popEnd ff l = some (a, r)) : r.length < l.length := by
  unfold popEnd at h
  cases ff with
  | true =>
    simp only [if_pos] at h
    cases l with
    | nil => exact absurd h (by simp)
    | cons x xs =>
      simp at h
      rw [← h.2]
      simp
  | false =>
    simp only [Bool.false_eq_true, if_neg] at h
    cases hl : l.getLast? with
    | none =>
      rw [hl] at h
      exact absurd h (by simp)
    | some x =>
      rw [hl] at h
      simp at h
      have hne : l ≠ [] := by
        intro h0
        rw [h0] at hl
        simp at hl
      rw [← h.2, List.length_dropLast]
      have : 0 < l.length := List.length_pos.mpr hne
      omega

/-- The exhaustion branch of `next_impl` from `path.rs` (the inner iterator
returned `None`): flush this end's `prev` segment; otherwise steal from the
other end's in-flight bezier iterator (which is *not* cleared when empty);
otherwise flush the other end's `prev` segment. -/
def stitchExhaust (ff : Bool) (s : StitchState) : Option Point × StitchState :=
  match s.fprev ff with
  | some p => (some p.point, s.setFprev ff none)
  | none =>
    match s.bbez ff with
    | some bl =>
      match popEnd ff bl with
      | some (pt, rest) => (some pt, s.setBbez ff (some rest))
      | none =>
        match s.bprev ff with
        | some p => (some p.point, s.setBprev ff none)
        | none => (none, s)
    | none =>
      match s.bprev ff with
      | some p => (some p.point, s.setBprev ff none)
      | none => (none, s)

/-- The main loop of `next_impl` from `path.rs`, entered with this end's
bezier iterator already handled (absent): take a segment from the inner
iterator (exhaustion is `stitchExhaust`); if this end's `prev` slot is empty,
buffer the segment and continue; otherwise emit the buffered segment's point
(straight link) or start iterating the synthesized bezier curve's flattened
points (bezier link, where an empty flattening falls back to the loop). -/
noncomputable def nextCore (ff : Bool) (s : StitchState) : Option Point × StitchState :=
  match hpop : popEnd ff s.inner with
  | none => stitchExhaust ff s
  | some (seg, rest) =>
    let s1 := s.setInner rest
    match s1.fprev ff with
    | none => nextCore ff (s1.setFprev ff (some seg))
    | some prev =>
      let s2 := s1.setFprev ff (some seg)
      match prev.ty with
      | .straightLine => (some prev.point, s2)
      | .bezierCurve ctx1 cty1 ctx2 cty2 =>
        let curve : BezierCurve := ⟨prev.point, ⟨ctx1, cty1⟩, ⟨ctx2, cty2⟩, seg.point⟩
        match popEnd ff curve.intoPoints with
        | some (pt, rest2) => (some pt, s2.setFbez ff (some rest2))
        | none => nextCore ff (s2.setFbez ff none)
termination_by s.inner.length
decreasing_by
  all_goals
    rcases ff with _ | _ <;>
      simpa [StitchState.setInner, StitchState.setFprev, StitchState.setFbez] using
        popEnd_length hpop

/-- `next_impl` from `path.rs`: first drain this end's in-flight bezier
iterator (clearing it when exhausted), then run the main loop. -/
noncomputable def nextImpl (ff : Bool) (s : StitchState) : Option Point × StitchState :=
  match s.fbez ff with
  | some l =>
    match popEnd ff l with
    | some (pt, rest) => (some pt, s.setFbez ff (some rest))
    | none => nextCore ff (s.setFbez ff none)
  | none => nextCore ff s

/-- `path_segments_to_points` from `path.rs`: the initial iterator state. -/
def initState (segs : List PathSegment) : StitchState := ⟨segs, none, none, none, none⟩

/-- Run the double-ended iterator under a schedule of pulls (`true` = `next`,
`false` = `next_back`), collecting the emitted points in pull order. -/
noncomputable def runStitch (sched : List Bool) (s : StitchState) :
    List Point × StitchState :=
  match sched with
  | [] => ([], s)
  | d :: rest =>
    match nextImpl d s with
    | (none, s') => runStitch rest s'
    | (some p, s') =>
      let pr := runStitch rest s'
      (p :: pr.1, pr.2)

/-- The vertex points still held inside an iterator state (inner segments
plus the two lookback slots), as a multiset. -/
def optVerts : Option PathSegment → Multiset Point
  | none => 0
  | some sg => {sg.point}

def stateVerts (s : StitchState) : Multiset Point :=
  (↑(s.inner.map PathSegment.point) : Multiset Point) +
    optVerts s.frontPrev + optVerts s.backPrev

def optStraight : Option PathSegment → Prop
  | none => True
  | some sg => sg.ty = .straightLine

/-- The invariant maintained while stitching a path all of whose links are
straight lines: every buffered segment is straight and no bezier iterator is
in flight. -/
def StraightInv (s : StitchState) : Prop :=
  (∀ sg ∈ s.inner, sg.ty = .straightLine) ∧
    optStraight s.frontPrev ∧ optStraight s.backPrev ∧
    s.frontBez = none ∧ s.backBez = none

theorem popEnd_eq_none {α : Type} {ff : Bool} {l : List α}
    (h : popEnd ff l = none) : l = [] := by
  unfold popEnd at h
  cases ff with
  | true =>
    simp only [if_pos] at h
    cases l with
    | nil => rfl
    | cons x xs => exact absurd h (by simp)
  | false =>
    simp only [Bool.false_eq_true, if_neg] at h
    cases hl : l.getLast? with
    | none => exact List.getLast?_eq_none_iff.mp hl
    | some x =>
      rw [hl] at h
      exact absurd h (by simp)

theorem popEnd_multiset {α β : Type} (f : α → β) {ff : Bool} {l : List α} {a : α}
    {r : List α} (h : popEnd ff l = some (a, r)) :
    (↑(l.map f) : Multiset β) = f a ::ₘ (↑(r.map f) : Multiset β) := by
  unfold popEnd at h
  cases ff with
  | true =>
    simp only [if_pos] at h
    cases l with
    | nil => exact absurd h (by simp)
    | cons x xs =>
      simp at h
      rw [← h.1, ← h.2]
      simp
  | false =>
    simp only [Bool.false_eq_true, if_neg] at h
    cases hl : l.getLast? with
    | none =>
      rw [hl] at h
      exact absurd h (by simp)
    | some x =>
      rw [hl] at h
      simp at h
      have hne : l ≠ [] := by
        intro h0
        rw [h0] at hl
        simp at hl
      have hsplit : l = l.dropLast ++ [l.getLast hne] := (List.dropLast_append_getLast hne).symm
      have hx : l.getLast hne = x := by
        have := List.getLast?_eq_getLast l hne
        rw [hl] at this
        exact (Option.some.injEq _ _).mp this.symm
      rw [← h.1, ← h.2]
      calc (↑(l.map f) : Multiset β)
          = (↑((l.dropLast ++ [l.getLast hne]).map f) : Multiset β) := by rw [← hsplit]
        _ = (↑(l.dropLast.map f ++ [f (l.getLast hne)]) : Multiset β) := by simp
        _ = (↑(l.dropLast.map f) : Multiset β) + (↑([f (l.getLast hne)] : List β) : Multiset β) := by
            rw [← Multiset.coe_add]
        _ = f x ::ₘ (↑(l.dropLast.map f) : Multiset β) := by
            rw [hx, add_comm]
            simp [Multiset.singleton_add]

theorem stitchExhaust_straight_step (ff : Bool) (s : StitchState)
    (hinner : s.inner = []) (hs : StraightInv s) :
    (∃ p s', stitchExhaust ff s = (some p, s') ∧ StraightInv s' ∧
        stateVerts s = p ::ₘ stateVerts s') ∨
      (stitchExhaust ff s = (none, s) ∧ stateVerts s = 0) := by
  obtain ⟨inner, fb, bb, fp, bp⟩ := s
  obtain ⟨hinn, hfp, hbp, hfb, hbb⟩ := hs
  simp only at hinner hfp hbp hfb hbb
  subst hinner hfb hbb
  cases ff with
  | true =>
    cases fp with
    | some p =>
      left
      refine ⟨p.point, _, rfl, ⟨by simp [StitchState.setFprev, StitchState.setBprev], trivial, hbp, rfl, rfl⟩, ?_⟩
      cases bp <;>
        (try simp [stateVerts, optVerts, StitchState.setFprev, StitchState.setBprev,
          Multiset.singleton_add]) <;>
        (try exact Multiset.cons_swap _ _ _) <;> (try rfl)
    | none =>
      cases bp with
      | some p =>
        left
        refine ⟨p.point, _, rfl, ⟨by simp [StitchState.setFprev, StitchState.setBprev], trivial, trivial, rfl, rfl⟩, ?_⟩
        (try simp [stateVerts, optVerts, StitchState.setFprev, StitchState.setBprev,
          Multiset.singleton_add]) <;>
        (try exact Multiset.cons_swap _ _ _) <;> (try rfl)
      | none =>
        right
        exact ⟨rfl, by simp [stateVerts, optVerts]⟩
  | false =>
    cases bp with
    | some p =>
      left
      refine ⟨p.point, _, rfl, ⟨by simp [StitchState.setFprev, StitchState.setBprev], hfp, trivial, rfl, rfl⟩, ?_⟩
      cases fp <;>
        (try simp [stateVerts, optVerts, StitchState.setFprev, StitchState.setBprev,
          Multiset.singleton_add]) <;>
        (try exact Multiset.cons_swap _ _ _) <;> (try rfl)
    | none =>
      cases fp with
      | some p =>
        left
        refine ⟨p.point, _, rfl, ⟨by simp [StitchState.setFprev, StitchState.setBprev], trivial, trivial, rfl, rfl⟩, ?_⟩
        (try simp [stateVerts, optVerts, StitchState.setFprev, StitchState.setBprev,
          Multiset.singleton_add]) <;>
        (try exact Multiset.cons_swap _ _ _) <;> (try rfl)
      | none =>
        right
        exact ⟨rfl, by simp [stateVerts, optVerts]⟩

theorem nextCore_eq_exhaust (ff : Bool) (s : StitchState)
    (h : popEnd ff s.inner = none) : nextCore ff s = stitchExhaust ff s := by
  rw [nextCore.eq_def]
  rw [h]

theorem nextCore_eq_some (ff : Bool) (s : StitchState) (seg : PathSegment)
    (rest : List PathSegment) (h : popEnd ff s.inner = some (seg, rest)) :
    nextCore ff s =
      match (s.setInner rest).fprev ff with
      | none => nextCore ff ((s.setInner rest).setFprev ff (some seg))
      | some prev =>
        match prev.ty with
        | .straightLine => (some prev.point, (s.setInner rest).setFprev ff (some seg))
        | .bezierCurve ctx1 cty1 ctx2 cty2 =>
          match popEnd ff
              (BezierCurve.intoPoints ⟨prev.point, ⟨ctx1, cty1⟩, ⟨ctx2, cty2⟩, seg.point⟩) with
          | some (pt, rest2) =>
            (some pt, (((s.setInner rest).setFprev ff (some seg)).setFbez ff (some rest2)))
          | none => nextCore ff (((s.setInner rest).setFprev ff (some seg)).setFbez ff none) := by
  rw [nextCore.eq_def]
  rw [h]

theorem popEnd_mem {α : Type} {ff : Bool} {l : List α} {a : α} {r : List α}
    (h : popEnd ff l = some (a, r)) : a ∈ l ∧ ∀ x ∈ r, x ∈ l := by
  unfold popEnd at h
  cases ff with
  | true =>
    simp only [if_pos] at h
    cases l with
    | nil => exact absurd h (by simp)
    | cons x xs =>
      simp at h
      rw [← h.1, ← h.2]
      exact ⟨List.mem_cons_self _ _, fun y hy => List.mem_cons_of_mem _ hy⟩
  | false =>
    simp only [Bool.false_eq_true, if_neg] at h
    cases hl : l.getLast? with
    | none =>
      rw [hl] at h
      exact absurd h (by simp)
    | some x =>
      rw [hl] at h
      simp at h
      have hne : l ≠ [] := by
        intro h0
        rw [h0] at hl
        simp at hl
      have hx : l.getLast hne = x := by
        have := List.getLast?_eq_getLast l hne
        rw [hl] at this
        exact (Option.some.injEq _ _).mp this.symm
      constructor
      · rw [← h.1, ← hx]
        exact List.getLast_mem hne
      · intro y hy
        rw [← h.2] at hy
        exact List.dropLast_subset _ hy

/-! Projection lemmas for the swapped accessors. -/

theorem fprev_setInner (ff : Bool) (s : StitchState) (l : List PathSegment) :
    (s.setInner l).fprev ff = s.fprev ff := by
  cases ff <;> rfl

theorem bprev_setInner (ff : Bool) (s : StitchState) (l : List PathSegment) :
    (s.setInner l).bprev ff = s.bprev ff := by
  cases ff <;> rfl

theorem fbez_setInner (ff : Bool) (s : StitchState) (l : List PathSegment) :
    (s.setInner l).fbez ff = s.fbez ff := by
  cases ff <;> rfl

theorem bbez_setInner (ff : Bool) (s : StitchState) (l : List PathSegment) :
    (s.setInner l).bbez ff = s.bbez ff := by
  cases ff <;> rfl

theorem inner_setFprev (ff : Bool) (s : StitchState) (v : Option PathSegment) :
    (s.setFprev ff v).inner = s.inner := by
  cases ff <;> rfl

theorem fprev_setFprev (ff : Bool) (s : StitchState) (v : Option PathSegment) :
    (s.setFprev ff v).fprev ff = v := by
  cases ff <;> simp [StitchState.setFprev, StitchState.fprev]

theorem bprev_setFprev (ff : Bool) (s : StitchState) (v : Option PathSegment) :
    (s.setFprev ff v).bprev ff = s.bprev ff := by
  cases ff <;> simp [StitchState.setFprev, StitchState.bprev]

theorem fbez_setFprev (ff : Bool) (s : StitchState) (v : Option PathSegment) :
    (s.setFprev ff v).fbez ff = s.fbez ff := by
  cases ff <;> simp [StitchState.setFprev, StitchState.fbez]

theorem bbez_setFprev (ff : Bool) (s : StitchState) (v : Option PathSegment) :
    (s.setFprev ff v).bbez ff = s.bbez ff := by
  cases ff <;> simp [StitchState.setFprev, StitchState.bbez]

/-- `stateVerts` through the role-swapped accessors: the two lookback slots
commute. -/
theorem stateVerts_decomp (ff : Bool) (s : StitchState) :
    stateVerts s = (↑(s.inner.map PathSegment.point) : Multiset Point) +
      optVerts (s.fprev ff) + optVerts (s.bprev ff) := by
  cases ff with
  | true => rfl
  | false =>
    show stateVerts s = (↑(s.inner.map PathSegment.point) : Multiset Point) +
      optVerts s.backPrev + optVerts s.frontPrev
    unfold stateVerts
    rw [add_right_comm]

theorem straightInv_of (ff : Bool) (s : StitchState)
    (h1 : ∀ sg ∈ s.inner, sg.ty = .straightLine)
    (h2 : optStraight (s.fprev ff)) (h3 : optStraight (s.bprev ff))
    (h4 : s.fbez ff = none) (h5 : s.bbez ff = none) : StraightInv s := by
  cases ff with
  | true => exact ⟨h1, h2, h3, h4, h5⟩
  | false => exact ⟨h1, h3, h2, h5, h4⟩

theorem straightInv_views (ff : Bool) (s : StitchState) (hs : StraightInv s) :
    optStraight (s.fprev ff) ∧ optStraight (s.bprev ff) ∧
      s.fbez ff = none ∧ s.bbez ff = none := by
  obtain ⟨-, h2, h3, h4, h5⟩ := hs
  cases ff with
  | true => exact ⟨h2, h3, h4, h5⟩
  | false => exact ⟨h3, h2, h5, h4⟩

theorem nextCore_straight_step (ff : Bool) (n : ℕ) :
    ∀ s : StitchState, s.inner.length ≤ n → StraightInv s →
      (∃ p s', nextCore ff s = (some p, s') ∧ StraightInv s' ∧
          stateVerts s = p ::ₘ stateVerts s') ∨
        (nextCore ff s = (none, s) ∧ stateVerts s = 0) := by
  induction n with
  | zero =>
    intro s hlen hs
    have hinner : s.inner = [] := List.eq_nil_of_length_eq_zero (Nat.le_zero.mp hlen)
    have hpop : popEnd ff s.inner = none := by
      rw [hinner]
      cases ff <;> rfl
    rw [nextCore_eq_exhaust ff s hpop]
    exact stitchExhaust_straight_step ff s hinner hs
  | succ n ih =>
    intro s hlen hs
    rcases hpop : popEnd ff s.inner with _ | ⟨seg, rest⟩
    · rw [nextCore_eq_exhaust ff s hpop]
      exact stitchExhaust_straight_step ff s (popEnd_eq_none hpop) hs
    · have hrest : rest.length ≤ n := by
        have := popEnd_length hpop
        omega
      obtain ⟨hfpS, hbpS, hfbN, hbbN⟩ := straightInv_views ff s hs
      obtain ⟨hinn, -, -, -, -⟩ := hs
      obtain ⟨hsegmem, hrestmem⟩ := popEnd_mem hpop
      have hseg : seg.ty = .straightLine := hinn seg hsegmem
      have hrestS : ∀ sg ∈ rest, sg.ty = PathSegmentType.straightLine :=
        fun sg hsg => hinn sg (hrestmem sg hsg)
      have hdecomp := popEnd_multiset PathSegment.point hpop
      rw [nextCore_eq_some ff s seg rest hpop]
      rcases hfpv : (s.setInner rest).fprev ff with _ | prev
      · -- no lookback yet: buffer the segment and continue
        have hs' : StraightInv ((s.setInner rest).setFprev ff (some seg)) := by
          refine straightInv_of ff _ ?_ ?_ ?_ ?_ ?_
          · rw [inner_setFprev]
            exact hrestS
          · rw [fprev_setFprev]
            exact hseg
          · rw [bprev_setFprev, bprev_setInner]
            exact hbpS
          · rw [fbez_setFprev, fbez_setInner]
            exact hfbN
          · rw [bbez_setFprev, bbez_setInner]
            exact hbbN
        have hlen' : ((s.setInner rest).setFprev ff (some seg)).inner.length ≤ n := by
          rw [inner_setFprev]
          exact hrest
        have hverts : stateVerts s = stateVerts ((s.setInner rest).setFprev ff (some seg)) := by
          rw [stateVerts_decomp ff s,
            stateVerts_decomp ff ((s.setInner rest).setFprev ff (some seg)),
            inner_setFprev, fprev_setFprev, bprev_setFprev, bprev_setInner]
          rw [fprev_setInner] at hfpv
          rw [hfpv, hdecomp]
          simp only [StitchState.setInner, optVerts, ← Multiset.singleton_add]
          abel
        rcases ih _ hlen' hs' with ⟨p, s'', heq, hinv, hv⟩ | ⟨heq, hv⟩
        · left
          exact ⟨p, s'', heq, hinv, by rw [hverts, hv]⟩
        · exfalso
          rw [← hverts] at hv
          rw [stateVerts_decomp ff s, hdecomp] at hv
          simp [← Multiset.singleton_add] at hv
      · -- lookback present: it is a straight segment, so emit its point
        obtain ⟨px, py, pty⟩ := prev
        have hfpvS : s.fprev ff = some ⟨px, py, pty⟩ := by
          rw [← fprev_setInner ff s rest]
          exact hfpv
        have hprevS : pty = PathSegmentType.straightLine := by
          have h := hfpS
          rw [hfpvS] at h
          exact h
        subst hprevS
        left
        refine ⟨(⟨px, py, PathSegmentType.straightLine⟩ : PathSegment).point,
          (s.setInner rest).setFprev ff (some seg), ?_, ?_, ?_⟩
        · rfl
        · refine straightInv_of ff _ ?_ ?_ ?_ ?_ ?_
          · rw [inner_setFprev]
            exact hrestS
          · rw [fprev_setFprev]
            exact hseg
          · rw [bprev_setFprev, bprev_setInner]
            exact hbpS
          · rw [fbez_setFprev, fbez_setInner]
            exact hfbN
          · rw [bbez_setFprev, bbez_setInner]
            exact hbbN
        · rw [stateVerts_decomp ff s,
            stateVerts_decomp ff ((s.setInner rest).setFprev ff (some seg)),
            inner_setFprev, fprev_setFprev, bprev_setFprev, bprev_setInner]
          rw [hfpvS, hdecomp]
          simp only [StitchState.setInner, optVerts, ← Multiset.singleton_add,
            PathSegment.point]
          abel

theorem nextImpl_straight_step (ff : Bool) (s : StitchState) (hs : StraightInv s) :
    (∃ p s', nextImpl ff s = (some p, s') ∧ StraightInv s' ∧
        stateVerts s = p ::ₘ stateVerts s') ∨
      (nextImpl ff s = (none, s) ∧ stateVerts s = 0) := by
  obtain ⟨-, -, hfb, -⟩ := straightInv_views ff s hs
  have : nextImpl ff s = nextCore ff s := by
    unfold nextImpl
    rw [hfb]
  rw [this]
  exact nextCore_straight_step ff s.inner.length s le_rfl hs

theorem runStitch_straight (sched : List Bool) :
    ∀ s : StitchState, StraightInv s →
      ((runStitch sched s).1 : Multiset Point) ≤ stateVerts s := by
  induction sched with
  | nil =>
    intro s hs
    simp [runStitch]
  | cons d rest ih =>
    intro s hs
    rcases nextImpl_straight_step d s hs with ⟨p, s', heq, hinv, hv⟩ | ⟨heq, hv⟩
    · have : runStitch (d :: rest) s = (p :: (runStitch rest s').1, (runStitch rest s').2) := by
        simp only [runStitch, heq]
      rw [this, hv]
      have hle := ih s' hinv
      calc ((p :: (runStitch rest s').1 : List Point) : Multiset Point)
          = p ::ₘ ((runStitch rest s').1 : Multiset Point) := by simp
        _ ≤ p ::ₘ stateVerts s' := Multiset.cons_le_cons p hle
    · have : runStitch (d :: rest) s = runStitch rest s := by
        simp only [runStitch, heq]
      rw [this]
      exact ih s hs

theorem nextImpl_single (d : Bool) (sg : PathSegment) :
    nextImpl d (initState [sg]) = (some sg.point, initState []) := by
  cases d with
  | true =>
    show nextCore true (initState [sg]) = _
    rw [nextCore_eq_some true (initState [sg]) sg [] rfl]
    show nextCore true (((initState [sg]).setInner []).setFprev true (some sg)) = _
    rw [nextCore_eq_exhaust true (((initState [sg]).setInner []).setFprev true (some sg)) rfl]
    rfl
  | false =>
    show nextCore false (initState [sg]) = _
    rw [nextCore_eq_some false (initState [sg]) sg [] rfl]
    show nextCore false (((initState [sg]).setInner []).setFprev false (some sg)) = _
    rw [nextCore_eq_exhaust false (((initState [sg]).setInner []).setFprev false (some sg)) rfl]
    rfl

theorem nextImpl_empty (d : Bool) : nextImpl d (initState []) = (none, initState []) := by
  cases d with
  | true =>
    show nextCore true (initState []) = _
    rw [nextCore_eq_exhaust true (initState []) rfl]
    rfl
  | false =>
    show nextCore false (initState []) = _
    rw [nextCore_eq_exhaust false (initState []) rfl]
    rfl

theorem runStitch_empty (sched : List Bool) :
    runStitch sched (initState []) = ([], initState []) := by
  induction sched with
  | nil => simp [runStitch]
  | cons d rest ih =>
    simp only [runStitch, nextImpl_empty]
    exact ih

/-- C2 (amended): for a path all of whose links are straight lines, the
double-ended point stream never emits the same logical point twice — under
front-only, back-only, or any interleaved consumption, the multiset of
emitted points is contained in the multiset of the path's vertex points —
and a path of exactly one segment (of either link type) emits exactly that
segment's point under any nonempty pull schedule. -/
theorem c2_stitcher_no_duplicates :
    (∀ (segs : List PathSegment) (sched : List Bool),
        (∀ sg ∈ segs, sg.ty = PathSegmentType.straightLine) →
          ((runStitch sched (initState segs)).1 : Multiset Point) ≤
            (↑(segs.map PathSegment.point) : Multiset Point)) ∧
      (∀ (sg : PathSegment) (sched : List Bool), sched ≠ [] →
        (runStitch sched (initState [sg])).1 = [sg.point]) := by
  constructor
  · intro segs sched hstraight
    have hinv : StraightInv (initState segs) := ⟨hstraight, trivial, trivial, rfl, rfl⟩
    have hverts : stateVerts (initState segs) = (↑(segs.map PathSegment.point) : Multiset Point) := by
      simp [stateVerts, initState, optVerts]
    rw [← hverts]
    exact runStitch_straight sched (initState segs) hinv
  · intro sg sched hne
    cases sched with
    | nil => exact absurd rfl hne
    | cons d rest =>
      simp only [runStitch, nextImpl_single, runStitch_empty]

/-- C2 (witness): the amended statement applied to the two-segment straight
path `(0,0) → (5,7)` under the interleaved schedule back-front-front, and to
the single-segment path at `(3,4)` pulled once from the back. -/
theorem c2_stitcher_no_duplicates_witness :
    ((runStitch [false, true, true]
        (initState [⟨0, 0, .straightLine⟩, ⟨5, 7, .straightLine⟩])).1 : Multiset Point) ≤
      (↑([⟨0, 0, .straightLine⟩, ⟨5, 7, .straightLine⟩].map PathSegment.point) :
        Multiset Point) ∧
      (runStitch [false] (initState [⟨3, 4, .bezierCurve 1 1 2 2⟩])).1 =
        [(⟨3, 4, PathSegmentType.bezierCurve 1 1 2 2⟩ : PathSegment).point] :=
  ⟨c2_stitcher_no_duplicates.1 _ _ (by
      intro sg hsg
      rcases List.mem_cons.mp hsg with h | h
      · rw [h]
      · rw [List.mem_singleton.mp h]),
    c2_stitcher_no_duplicates.2 _ _ (by simp)⟩

/-- The bezier curve the stitcher synthesizes for the path
`[(0,0) bezier(0,0,24,0), (24,0)]`. -/
def curve0 : BezierCurve := ⟨⟨0, 0⟩, ⟨0, 0⟩, ⟨24, 0⟩, ⟨24, 0⟩⟩

theorem curve0_approxLength : curve0.approxLength = 24 := by
  unfold curve0 BezierCurve.approxLength Point.distanceTo
  push_cast
  norm_num
  rw [show (576 : ℝ) = 24 ^ 2 by norm_num, Real.sqrt_sq (by norm_num)]

theorem curve0_numSegments : curve0.numSegments = 4 := by
  unfold BezierCurve.numSegments rustTruncNat
  rw [curve0_approxLength]
  have h1 : (32 : ℝ) ≤ Real.sqrt 1376 := by
    rw [show (32 : ℝ) = Real.sqrt 1024 by
      rw [show (1024 : ℝ) = 32 ^ 2 by norm_num, Real.sqrt_sq (by norm_num)]]
    exact Real.sqrt_le_sqrt (by norm_num)
  have h2 : Real.sqrt 1376 < 40 := by
    have := Real.sqrt_lt_sqrt (by norm_num : (0:ℝ) ≤ 1376)
      (by norm_num : (1376:ℝ) < 1600)
    rwa [show (1600 : ℝ) = 40 ^ 2 by norm_num, Real.sqrt_sq (by norm_num)] at this
  have hfl : ⌊Real.sqrt (24 ^ 2 + 800) / 8⌋ = 4 := by
    norm_num
    rw [Int.floor_eq_iff]
    push_cast
    constructor <;> linarith
  rw [hfl]
  rfl

theorem curve0_intoPoints :
    curve0.intoPoints = [⟨4, 0⟩, ⟨12, 0⟩, ⟨20, 0⟩, ⟨24, 0⟩] := by
  unfold BezierCurve.intoPoints
  simp only [curve0_numSegments]
  rw [show List.range 4 = [0, 1, 2, 3] from rfl]
  simp only [List.map_cons, List.map_nil, List.cons.injEq, and_true]
  refine ⟨?_, ?_, ?_, ?_⟩ <;>
    · unfold curve0 BezierCurve.evalAt
      norm_num [rustRound]

/-- The bezier branch of the stitcher's main loop, with the synthesized
curve's flattening supplied as an equation. -/
theorem nextCore_eq_bezier (ff : Bool) (s : StitchState) (seg : PathSegment)
    (rest : List PathSegment) (px py c1x c1y c2x c2y : ℤ) (l : List Point)
    (hpop : popEnd ff s.inner = some (seg, rest))
    (hfpv : (s.setInner rest).fprev ff = some ⟨px, py, .bezierCurve c1x c1y c2x c2y⟩)
    (hflat : BezierCurve.intoPoints ⟨⟨px, py⟩, ⟨c1x, c1y⟩, ⟨c2x, c2y⟩, seg.point⟩ = l) :
    nextCore ff s =
      match popEnd ff l with
      | some (pt, rest2) =>
        (some pt, (((s.setInner rest).setFprev ff (some seg)).setFbez ff (some rest2)))
      | none => nextCore ff (((s.setInner rest).setFprev ff (some seg)).setFbez ff none) := by
  rw [nextCore_eq_some ff s seg rest hpop, hfpv, ← hflat]
  rfl

theorem c2_step1 :
    nextImpl true (initState [⟨0, 0, .bezierCurve 0 0 24 0⟩, ⟨24, 0, .straightLine⟩]) =
      (some ⟨4, 0⟩,
        ⟨[], some [⟨12, 0⟩, ⟨20, 0⟩, ⟨24, 0⟩], none, some ⟨24, 0, .straightLine⟩, none⟩) := by
  show nextCore true (initState [⟨0, 0, .bezierCurve 0 0 24 0⟩, ⟨24, 0, .straightLine⟩]) = _
  rw [nextCore_eq_some true (initState [⟨0, 0, .bezierCurve 0 0 24 0⟩, ⟨24, 0, .straightLine⟩])
    ⟨0, 0, .bezierCurve 0 0 24 0⟩ [⟨24, 0, .straightLine⟩] rfl]
  show nextCore true (((initState [⟨0, 0, .bezierCurve 0 0 24 0⟩,
    ⟨24, 0, .straightLine⟩]).setInner [⟨24, 0, .straightLine⟩]).setFprev true
      (some ⟨0, 0, .bezierCurve 0 0 24 0⟩)) = _
  rw [nextCore_eq_bezier true (((initState [⟨0, 0, .bezierCurve 0 0 24 0⟩,
      ⟨24, 0, .straightLine⟩]).setInner [⟨24, 0, .straightLine⟩]).setFprev true
        (some ⟨0, 0, .bezierCurve 0 0 24 0⟩)) ⟨24, 0, .straightLine⟩ [] 0 0 0 0 24 0
    [⟨4, 0⟩, ⟨12, 0⟩, ⟨20, 0⟩, ⟨24, 0⟩] rfl rfl curve0_intoPoints]
  rfl

theorem c2_step2 :
    nextImpl true (⟨[], some [⟨12, 0⟩, ⟨20, 0⟩, ⟨24, 0⟩], none,
        some ⟨24, 0, .straightLine⟩, none⟩ : StitchState) =
      (some ⟨12, 0⟩,
        ⟨[], some [⟨20, 0⟩, ⟨24, 0⟩], none, some ⟨24, 0, .straightLine⟩, none⟩) := rfl

theorem c2_step3 :
    nextImpl true (⟨[], some [⟨20, 0⟩, ⟨24, 0⟩], none,
        some ⟨24, 0, .straightLine⟩, none⟩ : StitchState) =
      (some ⟨20, 0⟩, ⟨[], some [⟨24, 0⟩], none, some ⟨24, 0, .straightLine⟩, none⟩) := rfl

theorem c2_step4 :
    nextImpl true (⟨[], some [⟨24, 0⟩], none,
        some ⟨24, 0, .straightLine⟩, none⟩ : StitchState) =
      (some ⟨24, 0⟩, ⟨[], some [], none, some ⟨24, 0, .straightLine⟩, none⟩) := rfl

theorem c2_step5 :
    nextImpl true (⟨[], some [], none, some ⟨24, 0, .straightLine⟩, none⟩ : StitchState) =
      (some ⟨24, 0⟩, ⟨[], none, none, none, none⟩) := by
  show nextCore true ((⟨[], some [], none, some ⟨24, 0, .straightLine⟩, none⟩ :
    StitchState).setFbez true none) = _
  rw [nextCore_eq_exhaust true ((⟨[], some [], none, some ⟨24, 0, .straightLine⟩, none⟩ :
    StitchState).setFbez true none) rfl]
  rfl

theorem c2_run_eval :
    (runStitch [true, true, true, true, true]
        (initState [⟨0, 0, .bezierCurve 0 0 24 0⟩, ⟨24, 0, .straightLine⟩])).1 =
      [⟨4, 0⟩, ⟨12, 0⟩, ⟨20, 0⟩, ⟨24, 0⟩, ⟨24, 0⟩] := by
  simp only [runStitch, c2_step1, c2_step2, c2_step3, c2_step4, c2_step5]

/-- C2 (counterexample): consuming the path
`[(0,0) with bezier link (controls (0,0) and (24,0)), (24,0)]` from the front
emits `(4,0), (12,0), (20,0), (24,0), (24,0)`: the final flattened sample of
the embedded bezier run (its `t = 1` sample, which is exactly the terminal
vertex) and the terminal vertex's own later emission are the same logical
point, emitted twice. -/
theorem c2_counterexample :
    (runStitch [true, true, true, true, true]
        (initState [⟨0, 0, .bezierCurve 0 0 24 0⟩, ⟨24, 0, .straightLine⟩])).1 =
      [⟨4, 0⟩, ⟨12, 0⟩, ⟨20, 0⟩, ⟨24, 0⟩, ⟨24, 0⟩] ∧
      ¬ (runStitch [true, true, true, true, true]
        (initState [⟨0, 0, .bezierCurve 0 0 24 0⟩, ⟨24, 0, .straightLine⟩])).1.Nodup := by
  refine ⟨c2_run_eval, ?_⟩
  rw [c2_run_eval]
  decide

/-! ### Triangles and trapezoids (`trap.rs`)

`trap.rs` works on lyon_geom `f32` geometry, modelled on `ℝ`.  The source's
`match` on the triple of `approx_eq` tests is modelled by the equivalent
chain of conditionals over the same four patterns; the `sort_unstable_by`
over the three vertices is modelled by a three-element sort by `y` (its tie
order is irrelevant: every place the sorted triple is used, the three `y`
values are pairwise distinct — see `fromTriangle_fallthrough_ne`). -/

/-- lyon_geom `Triangle<f32>`. -/
structure Triangle where
  a : Point2
  b : Point2
  c : Point2

/-- `Trapezoid` from `trap.rs`: horizontal `top` and `bottom` limits plus the
`left` and `right` bounding lines. -/
structure Trapezoid where
  top : ℝ
  bottom : ℝ
  left : LineV
  right : LineV

/-- `Trapezoid::tri` from `trap.rs`: a trapezoid from three points of which
`eq_pt1` and `eq_pt2` carry the equal `y` coordinate. -/
noncomputable def Trapezoid.tri (offPt eqPt1 eqPt2 : Point2) : Trapezoid :=
  let tb := if offPt.y < eqPt1.y then (offPt, eqPt1) else (eqPt1, offPt)
  let lr := if eqPt1.x < eqPt2.x then (eqPt1, eqPt2) else (eqPt2, eqPt1)
  { top := tb.1.y
    bottom := tb.2.y
    left := ⟨offPt, ⟨lr.1.x - offPt.x, lr.1.y - offPt.y⟩⟩
    right := ⟨offPt, ⟨lr.2.x - offPt.x, lr.2.y - offPt.y⟩⟩ }

/-- The three triangle vertices sorted by `y` (the `sort_unstable_by` in
`from_triangle`). -/
noncomputable def sort3 (a b c : Point2) : Point2 × Point2 × Point2 :=
  if a.y ≤ b.y then
    if b.y ≤ c.y then (a, b, c)
    else if a.y ≤ c.y then (a, c, b)
    else (c, a, b)
  else
    if a.y ≤ c.y then (b, a, c)
    else if b.y ≤ c.y then (b, c, a)
    else (c, b, a)

/-- `Trapezoid::from_triangle` from `trap.rs`.  The `.expect("the line should
never be horizontal")` panic is modelled as `none`. -/
noncomputable def Trapezoid.fromTriangle (t : Triangle) : Option (List Trapezoid) :=
  if approxEq t.a.y t.b.y ∧ approxEq t.b.y t.c.y ∧ approxEq t.c.y t.a.y then
    some []
  else if approxEq t.a.y t.b.y ∧ ¬approxEq t.b.y t.c.y ∧ ¬approxEq t.c.y t.a.y then
    some [Trapezoid.tri t.c t.a t.b]
  else if ¬approxEq t.a.y t.b.y ∧ approxEq t.b.y t.c.y ∧ ¬approxEq t.c.y t.a.y then
    some [Trapezoid.tri t.a t.b t.c]
  else if ¬approxEq t.a.y t.b.y ∧ ¬approxEq t.b.y t.c.y ∧ approxEq t.c.y t.a.y then
    some [Trapezoid.tri t.b t.c t.a]
  else
    let s := sort3 t.a t.b t.c
    let top := s.1
    let middle := s.2.1
    let bottom := s.2.2
    let tbLine : LineV := ⟨top, ⟨bottom.x - top.x, bottom.y - top.y⟩⟩
    match tbLine.equation.solveXForY middle.y with
    | none => none
    | some dividerX =>
      let divider : Point2 := ⟨dividerX, middle.y⟩
      some [Trapezoid.tri top middle divider, Trapezoid.tri bottom middle divider]

/-- Modelled from the spec: membership in the triangle's area — the convex
hull of the three vertices, via barycentric coordinates. -/
def conv3 (A B C p : Point2) : Prop :=
  ∃ α β γ : ℝ, 0 ≤ α ∧ 0 ≤ β ∧ 0 ≤ γ ∧ α + β + γ = 1 ∧
    p.x = α * A.x + β * B.x + γ * C.x ∧
    p.y = α * A.y + β * B.y + γ * C.y

/-- Modelled from the spec: membership in a triangle's area. -/
def pointInTriangle (t : Triangle) (p : Point2) : Prop :=
  conv3 t.a t.b t.c p

/-- Modelled from the spec: the `x` at which a (non-horizontal) bounding line
crosses height `y`. -/
noncomputable def lineXAt (l : LineV) (y : ℝ) : ℝ :=
  l.point.x + l.vector.x * (y - l.point.y) / l.vector.y

/-- Modelled from the spec: membership in a trapezoid's area — between the
`top` and `bottom` horizontals and between the `left` and `right` bounding
lines. -/
def pointInTrapezoid (tz : Trapezoid) (p : Point2) : Prop :=
  tz.top ≤ p.y ∧ p.y ≤ tz.bottom ∧
    lineXAt tz.left p.y ≤ p.x ∧ p.x ≤ lineXAt tz.right p.y

theorem approxEq_of_eq {x y : ℝ} (h : x = y) : approxEq x y := by
  unfold approxEq
  rw [h]
  simpa using f32Epsilon_pos

theorem approxEq_symm {x y : ℝ} (h : approxEq x y) : approxEq y x := by
  unfold approxEq at h ⊢
  rwa [abs_sub_comm]

theorem ne_of_not_approxEq {x y : ℝ} (h : ¬approxEq x y) : x ≠ y :=
  fun he => h (approxEq_of_eq he)

theorem solveXForY_eq (l : LineV) (hvy : l.vector.y ≠ 0) (y : ℝ) :
    l.equation.solveXForY y =
      some (l.point.x + l.vector.x * (y - l.point.y) / l.vector.y) := by
  unfold LineV.equation LineEquation.solveXForY
  simp only
  have ha0ne : -l.vector.y ≠ 0 := neg_ne_zero.mpr hvy
  have hsum : 0 < -l.vector.y * -l.vector.y + l.vector.x * l.vector.x := by
    nlinarith [mul_self_pos.mpr ha0ne, mul_self_nonneg l.vector.x]
  have hsqrt : 0 < Real.sqrt (-l.vector.y * -l.vector.y + l.vector.x * l.vector.x) :=
    Real.sqrt_pos.mpr hsum
  have hdiv : (1 : ℝ) / Real.sqrt (-l.vector.y * -l.vector.y + l.vector.x * l.vector.x) ≠ 0 := by
    positivity
  rw [if_neg (mul_ne_zero ha0ne hdiv)]
  congr 1
  set dv : ℝ := 1 / Real.sqrt (-l.vector.y * -l.vector.y + l.vector.x * l.vector.x) with hdv
  have h1 : l.vector.x * dv * y +
      -(-l.vector.y * l.point.x + l.vector.x * l.point.y) * dv =
      (l.vector.x * y + -(-l.vector.y * l.point.x + l.vector.x * l.point.y)) * dv := by
    ring
  have h2 : -(-l.vector.y * dv) = -(-l.vector.y) * dv := by
    ring
  rw [h1, h2, mul_comm (l.vector.x * y + -(-l.vector.y * l.point.x + l.vector.x * l.point.y)) dv,
    mul_comm (-(-l.vector.y)) dv, mul_div_mul_left _ _ hdiv]
  rw [neg_neg]
  field_simp
  ring

/-- C3 (counterexample): the triangle `(0,0), (8, ε/2), (4, ε/4)` (with
`ε = f32::EPSILON`) has nonzero area, but all three vertex pairs are
approximately equal in `y`, so `from_triangle` returns **zero** trapezoids;
the vertex `(8, ε/2)` lies in the triangle yet in no returned trapezoid, so
the returned trapezoids do not exactly tile the triangle's area. -/
theorem c3_counterexample :
    Trapezoid.fromTriangle ⟨⟨0, 0⟩, ⟨8, f32Epsilon / 2⟩, ⟨4, f32Epsilon / 4⟩⟩ = some [] ∧
      pointInTriangle ⟨⟨0, 0⟩, ⟨8, f32Epsilon / 2⟩, ⟨4, f32Epsilon / 4⟩⟩
        ⟨8, f32Epsilon / 2⟩ := by
  have hε := f32Epsilon_pos
  constructor
  · unfold Trapezoid.fromTriangle
    rw [if_pos]
    refine ⟨?_, ?_, ?_⟩
    · show approxEq 0 (f32Epsilon / 2)
      unfold approxEq
      rw [zero_sub, abs_neg, abs_of_pos (by linarith)]
      linarith
    · show approxEq (f32Epsilon / 2) (f32Epsilon / 4)
      unfold approxEq
      rw [show f32Epsilon / 2 - f32Epsilon / 4 = f32Epsilon / 4 by ring,
        abs_of_pos (by linarith)]
      linarith
    · show approxEq (f32Epsilon / 4) 0
      unfold approxEq
      rw [sub_zero, abs_of_pos (by linarith)]
      linarith
  · refine ⟨0, 1, 0, le_refl 0, zero_le_one, le_refl 0, by ring, ?_, ?_⟩
    · show (8 : ℝ) = 0 * 0 + 1 * 8 + 0 * 4
      norm_num
    · show f32Epsilon / 2 = 0 * 0 + 1 * (f32Epsilon / 2) + 0 * (f32Epsilon / 4)
      ring

theorem tri_vector_y (off e1 e2 : Point2) (h1 : e1.y ≠ off.y) (h2 : e2.y ≠ off.y) :
    (Trapezoid.tri off e1 e2).left.vector.y ≠ 0 ∧
      (Trapezoid.tri off e1 e2).right.vector.y ≠ 0 := by
  unfold Trapezoid.tri
  by_cases hx : e1.x < e2.x
  · simp only [if_pos hx]
    exact ⟨sub_ne_zero.mpr h1, sub_ne_zero.mpr h2⟩
  · simp only [if_neg hx]
    exact ⟨sub_ne_zero.mpr h2, sub_ne_zero.mpr h1⟩

theorem fallthrough_ne (t : Triangle)
    (hnot1 : ¬(approxEq t.a.y t.b.y ∧ approxEq t.b.y t.c.y ∧ approxEq t.c.y t.a.y))
    (hnot2 : ¬(approxEq t.a.y t.b.y ∧ ¬approxEq t.b.y t.c.y ∧ ¬approxEq t.c.y t.a.y))
    (hnot3 : ¬(¬approxEq t.a.y t.b.y ∧ approxEq t.b.y t.c.y ∧ ¬approxEq t.c.y t.a.y))
    (hnot4 : ¬(¬approxEq t.a.y t.b.y ∧ ¬approxEq t.b.y t.c.y ∧ approxEq t.c.y t.a.y)) :
    t.a.y ≠ t.b.y ∧ t.b.y ≠ t.c.y ∧ t.c.y ≠ t.a.y := by
  refine ⟨?_, ?_, ?_⟩
  · intro he
    have hP1 : approxEq t.a.y t.b.y := approxEq_of_eq he
    have hiff : approxEq t.b.y t.c.y ↔ approxEq t.c.y t.a.y := by
      unfold approxEq
      rw [he, abs_sub_comm]
    by_cases h2 : approxEq t.b.y t.c.y
    · exact hnot1 ⟨hP1, h2, hiff.mp h2⟩
    · exact hnot2 ⟨hP1, h2, fun h3 => h2 (hiff.mpr h3)⟩
  · intro he
    have hP2 : approxEq t.b.y t.c.y := approxEq_of_eq he
    have hiff : approxEq t.a.y t.b.y ↔ approxEq t.c.y t.a.y := by
      unfold approxEq
      rw [he, abs_sub_comm]
    by_cases h1 : approxEq t.a.y t.b.y
    · exact hnot1 ⟨h1, hP2, hiff.mp h1⟩
    · exact hnot3 ⟨h1, hP2, fun h3 => h1 (hiff.mpr h3)⟩
  · intro he
    have hP3 : approxEq t.c.y t.a.y := approxEq_of_eq he
    have hiff : approxEq t.a.y t.b.y ↔ approxEq t.b.y t.c.y := by
      unfold approxEq
      rw [← he, abs_sub_comm]
    by_cases h1 : approxEq t.a.y t.b.y
    · exact hnot1 ⟨h1, hiff.mp h1, hP3⟩
    · exact hnot4 ⟨h1, fun h2 => h1 (hiff.mpr h2), hP3⟩

set_option maxHeartbeats 1000000 in
theorem sort3_spec (a b c : Point2) :
    ∃ T M B, sort3 a b c = (T, M, B) ∧ T.y ≤ M.y ∧ M.y ≤ B.y ∧
      ((T = a ∧ M = b ∧ B = c) ∨ (T = a ∧ M = c ∧ B = b) ∨ (T = c ∧ M = a ∧ B = b) ∨
        (T = b ∧ M = a ∧ B = c) ∨ (T = b ∧ M = c ∧ B = a) ∨ (T = c ∧ M = b ∧ B = a)) := by
  unfold sort3
  split_ifs with h1 h2 h3 h4 h5 <;>
    refine ⟨_, _, _, rfl, by linarith, by linarith, by tauto⟩

theorem conv3_swap12 (A B C p : Point2) : conv3 A B C p ↔ conv3 B A C p := by
  constructor <;>
    · rintro ⟨α, β, γ, h0, h1, h2, hs, hx, hy⟩
      exact ⟨β, α, γ, h1, h0, h2, by linarith, by rw [hx]; ring, by rw [hy]; ring⟩

theorem conv3_swap23 (A B C p : Point2) : conv3 A B C p ↔ conv3 A C B p := by
  constructor <;>
    · rintro ⟨α, β, γ, h0, h1, h2, hs, hx, hy⟩
      exact ⟨α, γ, β, h0, h2, h1, by linarith, by rw [hx]; ring, by rw [hy]; ring⟩

theorem conv3_rot_mp (A B C p : Point2) (h : conv3 A B C p) : conv3 B C A p := by
  obtain ⟨α, β, γ, h0, h1, h2, hs, hx, hy⟩ := h
  exact ⟨β, γ, α, h1, h2, h0, by linarith, by rw [hx]; ring, by rw [hy]; ring⟩

theorem conv3_rot (A B C p : Point2) : conv3 A B C p ↔ conv3 B C A p :=
  ⟨conv3_rot_mp A B C p, fun h => conv3_rot_mp C A B p (conv3_rot_mp B C A p h)⟩

/-- Core tiling fact: with the base points `L` (left) and `R` (right) at one
`y` and the apex `off` at another, the convex hull of the three points is
exactly the vertical slab between the two heights cut by the two apex-to-base
lines. -/
theorem triCore (off L R : Point2) (hLR : L.x ≤ R.x) (hy : L.y = R.y)
    (hne : off.y ≠ L.y) (p : Point2) :
    conv3 off L R p ↔
      (min off.y L.y ≤ p.y ∧ p.y ≤ max off.y L.y ∧
        off.x + (L.x - off.x) * (p.y - off.y) / (L.y - off.y) ≤ p.x ∧
        p.x ≤ off.x + (R.x - off.x) * (p.y - off.y) / (R.y - off.y)) := by
  have hd : L.y - off.y ≠ 0 := sub_ne_zero.mpr (Ne.symm hne)
  have hdR : R.y - off.y = L.y - off.y := by rw [← hy]
  constructor
  · rintro ⟨α, β, γ, h0, h1, h2, hs, hx, hyp⟩
    have hα : α = 1 - β - γ := by linarith
    have hpy : p.y - off.y = (β + γ) * (L.y - off.y) := by
      rw [hyp, hα, ← hy]
      ring
    have ht0 : (0 : ℝ) ≤ β + γ := by linarith
    have ht1 : β + γ ≤ 1 := by linarith
    have hquot : (p.y - off.y) / (L.y - off.y) = β + γ := by
      rw [hpy]
      field_simp
    have hlx : p.x - (off.x + (L.x - off.x) * (β + γ)) = γ * (R.x - L.x) := by
      rw [hx, hα]
      ring
    have hrx : (off.x + (R.x - off.x) * (β + γ)) - p.x = β * (R.x - L.x) := by
      rw [hx, hα]
      ring
    have hRL : (0 : ℝ) ≤ R.x - L.x := sub_nonneg.mpr hLR
    refine ⟨?_, ?_, ?_, ?_⟩
    · rcases lt_or_gt_of_ne hne with hlt | hgt
      · rw [min_eq_left (le_of_lt hlt)]
        nlinarith [mul_nonneg ht0 (le_of_lt (sub_pos.mpr hlt))]
      · rw [min_eq_right (le_of_lt hgt)]
        nlinarith [mul_nonneg (by linarith : (0:ℝ) ≤ 1 - (β + γ))
          (le_of_lt (sub_pos.mpr hgt))]
    · rcases lt_or_gt_of_ne hne with hlt | hgt
      · rw [max_eq_right (le_of_lt hlt)]
        nlinarith [mul_nonneg (by linarith : (0:ℝ) ≤ 1 - (β + γ))
          (le_of_lt (sub_pos.mpr hlt))]
      · rw [max_eq_left (le_of_lt hgt)]
        nlinarith [mul_nonneg ht0 (le_of_lt (sub_pos.mpr hgt))]
    · rw [mul_div_assoc, hquot]
      nlinarith [mul_nonneg h2 hRL]
    · rw [mul_div_assoc, hdR, hquot]
      nlinarith [mul_nonneg h1 hRL]
  · rintro ⟨hmin, hmax, hxl, hxr⟩
    set t : ℝ := (p.y - off.y) / (L.y - off.y) with hts
    have hpy : p.y = off.y + t * (L.y - off.y) := by
      rw [hts, div_mul_cancel₀ _ hd]
      ring
    have ht0 : (0 : ℝ) ≤ t := by
      rcases lt_or_gt_of_ne hne with hlt | hgt
      · have h1 : off.y ≤ p.y := by
          rw [min_eq_left (le_of_lt hlt)] at hmin
          exact hmin
        rw [hts]
        exact div_nonneg (by linarith) (by linarith)
      · have h1 : p.y ≤ off.y := by
          rw [max_eq_left (le_of_lt hgt)] at hmax
          exact hmax
        rw [hts]
        exact div_nonneg_of_nonpos (by linarith) (by linarith)
    have ht1 : t ≤ 1 := by
      rcases lt_or_gt_of_ne hne with hlt | hgt
      · have h1 : p.y ≤ L.y := by
          rw [max_eq_right (le_of_lt hlt)] at hmax
          exact hmax
        rw [hts, div_le_one (by linarith)]
        linarith
      · have h1 : L.y ≤ p.y := by
          rw [min_eq_right (le_of_lt hgt)] at hmin
          exact hmin
        rw [hts, div_le_one_iff]
        right
        right
        exact ⟨by linarith, by linarith⟩
    have hlx : off.x + (L.x - off.x) * (p.y - off.y) / (L.y - off.y) =
        off.x + (L.x - off.x) * t := by
      rw [hts]
      ring
    have hrx : off.x + (R.x - off.x) * (p.y - off.y) / (R.y - off.y) =
        off.x + (R.x - off.x) * t := by
      rw [hdR, hts]
      ring
    rw [hlx] at hxl
    rw [hrx] at hxr
    set γ : ℝ := (p.x - (off.x + (L.x - off.x) * t)) / (R.x - L.x) with hγs
    have hrxlx : off.x + (R.x - off.x) * t = (off.x + (L.x - off.x) * t) + t * (R.x - L.x) := by
      ring
    have hγx : γ * (R.x - L.x) = p.x - (off.x + (L.x - off.x) * t) := by
      rcases eq_or_lt_of_le hLR with he | hlt
      · have hz : R.x - L.x = 0 := by rw [← he]; ring
        rw [hz, mul_zero]
        have : p.x ≤ off.x + (L.x - off.x) * t := by
          rw [hrxlx, hz] at hxr
          linarith
        linarith [hxl]
      · exact div_mul_cancel₀ _ (ne_of_gt (sub_pos.mpr hlt))
    have hγ0 : 0 ≤ γ := by
      rcases eq_or_lt_of_le hLR with he | hlt
      · have hz : R.x - L.x = 0 := by rw [← he]; ring
        rw [hγs, hz, div_zero]
      · exact div_nonneg (by linarith) (le_of_lt (sub_pos.mpr hlt))
    have hγt : γ ≤ t := by
      rcases eq_or_lt_of_le hLR with he | hlt
      · have hz : R.x - L.x = 0 := by rw [← he]; ring
        rw [hγs, hz, div_zero]
        exact ht0
      · rw [hγs, div_le_iff (sub_pos.mpr hlt)]
        rw [hrxlx] at hxr
        linarith
    refine ⟨1 - t, t - γ, γ, by linarith, by linarith, hγ0, by ring, ?_, ?_⟩
    · have : (1 - t) * off.x + (t - γ) * L.x + γ * R.x =
          (off.x + (L.x - off.x) * t) + γ * (R.x - L.x) := by ring
      rw [this, hγx]
      ring
    · rw [← hy]
      rw [hpy]
      ring

/-- The trapezoid `Trapezoid::tri` builds from an apex and two base points
with one shared `y` covers exactly the triangle of the three points. -/
theorem tri_tiling (off e1 e2 : Point2) (hy12 : e1.y = e2.y) (hne : off.y ≠ e1.y)
    (p : Point2) :
    conv3 off e1 e2 p ↔ pointInTrapezoid (Trapezoid.tri off e1 e2) p := by
  have hne2 : off.y ≠ e2.y := by
    rw [← hy12]
    exact hne
  have htop : (if off.y < e1.y then (off, e1) else (e1, off)).1.y = min off.y e1.y := by
    by_cases hoy : off.y < e1.y
    · rw [if_pos hoy]
      exact (min_eq_left (le_of_lt hoy)).symm
    · rw [if_neg hoy]
      exact (min_eq_right (le_of_not_lt hoy)).symm
  have hbot : (if off.y < e1.y then (off, e1) else (e1, off)).2.y = max off.y e1.y := by
    by_cases hoy : off.y < e1.y
    · rw [if_pos hoy]
      exact (max_eq_right (le_of_lt hoy)).symm
    · rw [if_neg hoy]
      exact (max_eq_left (le_of_not_lt hoy)).symm
  unfold pointInTrapezoid Trapezoid.tri lineXAt
  by_cases hx : e1.x < e2.x
  · simp only [if_pos hx]
    rw [htop, hbot]
    exact triCore off e1 e2 (le_of_lt hx) hy12 hne p
  · simp only [if_neg hx]
    rw [htop, hbot]
    have hmin : min off.y e1.y = min off.y e2.y := by rw [hy12]
    have hmax : max off.y e1.y = max off.y e2.y := by rw [hy12]
    rw [hmin, hmax]
    exact (conv3_swap23 off e1 e2 p).trans
      (triCore off e2 e1 (le_of_not_lt hx) hy12.symm hne2 p)

theorem conv3_swap13 (A B C p : Point2) : conv3 A B C p ↔ conv3 C B A p := by
  constructor <;>
    · rintro ⟨α, β, γ, h0, h1, h2, hs, hx, hy⟩
      exact ⟨γ, β, α, h2, h1, h0, by linarith, by rw [hx]; ring, by rw [hy]; ring⟩

/-- Half of the divider split: a convex-hull point at or below the divider
height lies in the upper sub-triangle. -/
theorem split_half (A B C D p : Point2)
    (hBA : B.y ≠ A.y) (hCA : C.y ≠ A.y)
    (hs0 : 0 < (B.y - A.y) / (C.y - A.y))
    (hDy : D.y = B.y)
    (hDx : D.x = A.x + (C.x - A.x) * (B.y - A.y) / (C.y - A.y))
    (hα : 0 ≤ (B.y - p.y) / (B.y - A.y))
    (hp : conv3 A B C p) : conv3 A B D p := by
  obtain ⟨α, β, γ, h0, h1, h2, hs, hx, hy⟩ := hp
  have hBA' : B.y - A.y ≠ 0 := sub_ne_zero.mpr hBA
  have hCA' : C.y - A.y ≠ 0 := sub_ne_zero.mpr hCA
  set s : ℝ := (B.y - A.y) / (C.y - A.y) with hss
  have hsne : s ≠ 0 := ne_of_gt hs0
  have hαv : α = 1 - β - γ := by linarith
  have hid : (1 - β - γ / s) * (B.y - A.y) = B.y - p.y := by
    rw [hy, hαv, hss]
    field_simp
    ring
  have hα' : (B.y - p.y) / (B.y - A.y) = 1 - β - γ / s := by
    rw [← hid]
    field_simp
    ring
  refine ⟨1 - β - γ / s, β, γ / s, ?_, h1, div_nonneg h2 (le_of_lt hs0), by ring, ?_, ?_⟩
  · rw [hα'] at hα
    exact hα
  · rw [hx, hαv, hDx, hss]
    field_simp
    ring
  · rw [hy, hαv, hDy, hss]
    field_simp
    ring

/-- The divider lies on the `A`–`C` edge, so each sub-triangle is contained
in the full triangle. -/
theorem conv3_sub (A B C D p : Point2) (hCA : C.y ≠ A.y)
    (hs0 : 0 ≤ (B.y - A.y) / (C.y - A.y)) (hs1 : (B.y - A.y) / (C.y - A.y) ≤ 1)
    (hDy : D.y = B.y) (hDx : D.x = A.x + (C.x - A.x) * (B.y - A.y) / (C.y - A.y))
    (hp : conv3 A B D p) : conv3 A B C p := by
  obtain ⟨α, β, γ, h0, h1, h2, hs, hx, hy⟩ := hp
  have hCA' : C.y - A.y ≠ 0 := sub_ne_zero.mpr hCA
  set s : ℝ := (B.y - A.y) / (C.y - A.y) with hss
  have hkey : s * (C.y - A.y) = B.y - A.y := by
    rw [hss]
    field_simp
  have hDx' : D.x = A.x + (C.x - A.x) * s := by
    rw [hDx, hss]
    ring
  refine ⟨α + γ * (1 - s), β, γ * s, ?_, h1, mul_nonneg h2 hs0, ?_, ?_, ?_⟩
  · exact add_nonneg h0 (mul_nonneg h2 (by linarith))
  · rw [show α + γ * (1 - s) + β + γ * s = α + β + γ by ring, hs]
  · rw [hx, hDx']
    ring
  · rw [hy, hDy, hss]
    field_simp
    ring

/-- The fall-through case of `from_triangle`: the two trapezoids built from
the sorted vertices and the divider cover exactly the triangle. -/
theorem two_trap_tiling (T M Bt : Point2) (hTM : T.y < M.y) (hMB : M.y < Bt.y)
    (D : Point2) (hDy : D.y = M.y)
    (hDx : D.x = T.x + (Bt.x - T.x) * (M.y - T.y) / (Bt.y - T.y)) (p : Point2) :
    conv3 T M Bt p ↔
      (pointInTrapezoid (Trapezoid.tri T M D) p ∨
        pointInTrapezoid (Trapezoid.tri Bt M D) p) := by
  have hTB : T.y < Bt.y := hTM.trans hMB
  have h1 : conv3 T M D p ↔ pointInTrapezoid (Trapezoid.tri T M D) p :=
    tri_tiling T M D hDy.symm (ne_of_lt hTM) p
  have h2 : conv3 Bt M D p ↔ pointInTrapezoid (Trapezoid.tri Bt M D) p :=
    tri_tiling Bt M D hDy.symm (ne_of_gt hMB) p
  have hDx' : D.x = Bt.x + (T.x - Bt.x) * (M.y - Bt.y) / (T.y - Bt.y) := by
    rw [hDx]
    have hne1 : Bt.y - T.y ≠ 0 := ne_of_gt (sub_pos.mpr hTB)
    have hne2 : T.y - Bt.y ≠ 0 := sub_ne_zero.mpr (ne_of_lt hTB)
    field_simp
    ring
  constructor
  · intro hp
    by_cases hpy : p.y ≤ M.y
    · left
      refine h1.mp (split_half T M Bt D p (ne_of_gt hTM) (ne_of_gt hTB) ?_ hDy hDx ?_ hp)
      · exact div_pos (sub_pos.mpr hTM) (sub_pos.mpr hTB)
      · exact div_nonneg (by linarith) (by linarith)
    · right
      push_neg at hpy
      have hp' : conv3 Bt M T p := (conv3_swap13 T M Bt p).mp hp
      refine h2.mp (split_half Bt M T D p (ne_of_lt hMB) (ne_of_lt hTB) ?_ hDy hDx' ?_ hp')
      · rw [div_pos_iff]
        right
        exact ⟨by linarith, by linarith⟩
      · exact div_nonneg_of_nonpos (by linarith) (by linarith)
  · rintro (hp | hp)
    · refine conv3_sub T M Bt D p (ne_of_gt hTB) ?_ ?_ hDy hDx (h1.mpr hp)
      · exact le_of_lt (div_pos (sub_pos.mpr hTM) (sub_pos.mpr hTB))
      · rw [div_le_one (sub_pos.mpr hTB)]
        linarith
    · have hsub : conv3 Bt M T p := by
        refine conv3_sub Bt M T D p (ne_of_lt hTB) ?_ ?_ hDy hDx' (h2.mpr hp)
        · rw [div_nonneg_iff]
          right
          exact ⟨by linarith, by linarith⟩
        · rw [div_le_one_iff]
          right
          right
          exact ⟨by linarith, by linarith⟩
      exact (conv3_swap13 T M Bt p).mpr hsub

/-- The fall-through branch of `from_triangle` (no arm of the `approx_eq`
match applies): the sort succeeds on pairwise-distinct `y`s, the divider
solve succeeds, and the two produced trapezoids exactly cover the
triangle. -/
theorem fromTriangle_fallthrough (t : Triangle)
    (hnot1 : ¬(approxEq t.a.y t.b.y ∧ approxEq t.b.y t.c.y ∧ approxEq t.c.y t.a.y))
    (hnot2 : ¬(approxEq t.a.y t.b.y ∧ ¬approxEq t.b.y t.c.y ∧ ¬approxEq t.c.y t.a.y))
    (hnot3 : ¬(¬approxEq t.a.y t.b.y ∧ approxEq t.b.y t.c.y ∧ ¬approxEq t.c.y t.a.y))
    (hnot4 : ¬(¬approxEq t.a.y t.b.y ∧ ¬approxEq t.b.y t.c.y ∧ approxEq t.c.y t.a.y)) :
    ∃ l, Trapezoid.fromTriangle t = some l ∧ l.length = 2 ∧
      (∀ tz ∈ l, tz.left.vector.y ≠ 0 ∧ tz.right.vector.y ≠ 0) ∧
      ∀ p, pointInTriangle t p ↔ ∃ tz ∈ l, pointInTrapezoid tz p := by
  obtain ⟨hab, hbc, hca⟩ := fallthrough_ne t hnot1 hnot2 hnot3 hnot4
  obtain ⟨T, M, B, hsort, hTM, hMB, hperm⟩ := sort3_spec t.a t.b t.c
  have hTMne : T.y ≠ M.y := by
    rcases hperm with ⟨hT, hM, hB⟩ | ⟨hT, hM, hB⟩ | ⟨hT, hM, hB⟩ | ⟨hT, hM, hB⟩ |
      ⟨hT, hM, hB⟩ | ⟨hT, hM, hB⟩ <;> subst hT <;> subst hM <;>
      first
        | exact hab
        | exact hab.symm
        | exact hbc
        | exact hbc.symm
        | exact hca
        | exact hca.symm
  have hMBne : M.y ≠ B.y := by
    rcases hperm with ⟨hT, hM, hB⟩ | ⟨hT, hM, hB⟩ | ⟨hT, hM, hB⟩ | ⟨hT, hM, hB⟩ |
      ⟨hT, hM, hB⟩ | ⟨hT, hM, hB⟩ <;> subst hM <;> subst hB <;>
      first
        | exact hab
        | exact hab.symm
        | exact hbc
        | exact hbc.symm
        | exact hca
        | exact hca.symm
  have hTMs : T.y < M.y := lt_of_le_of_ne hTM hTMne
  have hMBs : M.y < B.y := lt_of_le_of_ne hMB hMBne
  have hvy : (⟨T, ⟨B.x - T.x, B.y - T.y⟩⟩ : LineV).vector.y ≠ 0 :=
    sub_ne_zero.mpr (ne_of_gt (hTMs.trans hMBs))
  refine ⟨[Trapezoid.tri T M ⟨T.x + (B.x - T.x) * (M.y - T.y) / (B.y - T.y), M.y⟩,
    Trapezoid.tri B M ⟨T.x + (B.x - T.x) * (M.y - T.y) / (B.y - T.y), M.y⟩], ?_, rfl, ?_, ?_⟩
  · unfold Trapezoid.fromTriangle
    rw [if_neg hnot1, if_neg hnot2, if_neg hnot3, if_neg hnot4]
    simp only [hsort]
    rw [solveXForY_eq _ hvy]
  · intro tz htz
    rcases List.mem_cons.mp htz with h | h
    · subst h
      exact tri_vector_y T M _ hTMne.symm hTMne.symm
    · rw [List.mem_singleton] at h
      subst h
      exact tri_vector_y B M _ (ne_of_lt hMBs) (ne_of_lt hMBs)
  · intro p
    have hiff := two_trap_tiling T M B hTMs hMBs
      ⟨T.x + (B.x - T.x) * (M.y - T.y) / (B.y - T.y), M.y⟩ rfl rfl p
    have hperm_iff : pointInTriangle t p ↔ conv3 T M B p := by
      unfold pointInTriangle
      rcases hperm with ⟨hT, hM, hB⟩ | ⟨hT, hM, hB⟩ | ⟨hT, hM, hB⟩ | ⟨hT, hM, hB⟩ |
        ⟨hT, hM, hB⟩ | ⟨hT, hM, hB⟩ <;> subst hT <;> subst hM <;> subst hB
      · exact Iff.rfl
      · exact conv3_swap23 _ _ _ _
      · exact (conv3_rot _ _ _ _).trans (conv3_rot _ _ _ _)
      · exact conv3_swap12 _ _ _ _
      · exact conv3_rot _ _ _ _
      · exact conv3_swap13 _ _ _ _
    rw [hperm_iff, hiff]
    simp

/-- C3 (amended): `from_triangle` panics on no triangle; it returns exactly 0
trapezoids when all three vertex pairs have approximately equal `y`
(within `f32::EPSILON`), exactly 1 when exactly one of the three vertex pairs
has approximately equal `y`, and exactly 2 otherwise; every returned
trapezoid has non-horizontal left and right bounding lines; and whenever the
approximate `y`-equalities among the vertices are exact equalities (and the
triangle is not fully degenerate), the returned trapezoids cover exactly the
triangle's point set.  In the tolerance-only regimes (approximately but not
exactly equal `y`s) the exact-tiling clause fails — see the
counterexample. -/
theorem c3_from_triangle_trapezoids (t : Triangle) :
    ∃ l, Trapezoid.fromTriangle t = some l ∧
      l.length =
        (if approxEq t.a.y t.b.y ∧ approxEq t.b.y t.c.y ∧ approxEq t.c.y t.a.y then 0
          else if (approxEq t.a.y t.b.y ∧ ¬approxEq t.b.y t.c.y ∧ ¬approxEq t.c.y t.a.y) ∨
              (¬approxEq t.a.y t.b.y ∧ approxEq t.b.y t.c.y ∧ ¬approxEq t.c.y t.a.y) ∨
              (¬approxEq t.a.y t.b.y ∧ ¬approxEq t.b.y t.c.y ∧ approxEq t.c.y t.a.y) then 1
          else 2) ∧
      (∀ tz ∈ l, tz.left.vector.y ≠ 0 ∧ tz.right.vector.y ≠ 0) ∧
      ((approxEq t.a.y t.b.y → t.a.y = t.b.y) →
        (approxEq t.b.y t.c.y → t.b.y = t.c.y) →
        (approxEq t.c.y t.a.y → t.c.y = t.a.y) →
        ¬(t.a.y = t.b.y ∧ t.b.y = t.c.y) →
        ∀ p, pointInTriangle t p ↔ ∃ tz ∈ l, pointInTrapezoid tz p) := by
  by_cases h1 : approxEq t.a.y t.b.y <;> by_cases h2 : approxEq t.b.y t.c.y <;>
    by_cases h3 : approxEq t.c.y t.a.y
  · -- (true, true, true): zero trapezoids
    refine ⟨[], ?_, ?_, by simp, ?_⟩
    · unfold Trapezoid.fromTriangle
      rw [if_pos ⟨h1, h2, h3⟩]
    · rw [if_pos ⟨h1, h2, h3⟩]
      rfl
    · intro hE1 hE2 hE3 hne
      exact absurd ⟨hE1 h1, hE2 h2⟩ hne
  · -- (true, true, false): fall-through, impossible under exactness
    obtain ⟨l, hl, hlen, hnh, -⟩ :=
      fromTriangle_fallthrough t (by tauto) (by tauto) (by tauto) (by tauto)
    refine ⟨l, hl, ?_, hnh, ?_⟩
    · rw [if_neg (by tauto), if_neg (by tauto)]
      exact hlen
    · intro hE1 hE2 hE3 hne
      exact absurd ⟨hE1 h1, hE2 h2⟩ hne
  · -- (true, false, true): fall-through, impossible under exactness
    obtain ⟨l, hl, hlen, hnh, -⟩ :=
      fromTriangle_fallthrough t (by tauto) (by tauto) (by tauto) (by tauto)
    refine ⟨l, hl, ?_, hnh, ?_⟩
    · rw [if_neg (by tauto), if_neg (by tauto)]
      exact hlen
    · intro hE1 hE2 hE3 hne
      exact absurd ⟨hE1 h1, ((hE1 h1).symm).trans ((hE3 h3).symm)⟩ hne
  · -- (true, false, false): one trapezoid, apex c
    refine ⟨[Trapezoid.tri t.c t.a t.b], ?_, ?_, ?_, ?_⟩
    · unfold Trapezoid.fromTriangle
      rw [if_neg (by tauto), if_pos ⟨h1, h2, h3⟩]
    · rw [if_neg (by tauto), if_pos (by tauto)]
      rfl
    · intro tz htz
      rw [List.mem_singleton] at htz
      subst htz
      exact tri_vector_y t.c t.a t.b (ne_of_not_approxEq h3).symm (ne_of_not_approxEq h2)
    · intro hE1 hE2 hE3 hne p
      have hperm : pointInTriangle t p ↔ conv3 t.c t.a t.b p := by
        unfold pointInTriangle
        exact (conv3_rot _ _ _ _).trans (conv3_rot _ _ _ _)
      rw [hperm, tri_tiling t.c t.a t.b (hE1 h1) (ne_of_not_approxEq h3) p]
      simp
  · -- (false, true, true): fall-through, impossible under exactness
    obtain ⟨l, hl, hlen, hnh, -⟩ :=
      fromTriangle_fallthrough t (by tauto) (by tauto) (by tauto) (by tauto)
    refine ⟨l, hl, ?_, hnh, ?_⟩
    · rw [if_neg (by tauto), if_neg (by tauto)]
      exact hlen
    · intro hE1 hE2 hE3 hne
      exact absurd ⟨((hE3 h3).symm).trans ((hE2 h2).symm), hE2 h2⟩ hne
  · -- (false, true, false): one trapezoid, apex a
    refine ⟨[Trapezoid.tri t.a t.b t.c], ?_, ?_, ?_, ?_⟩
    · unfold Trapezoid.fromTriangle
      rw [if_neg (by tauto), if_neg (by tauto), if_pos ⟨h1, h2, h3⟩]
    · rw [if_neg (by tauto), if_pos (by tauto)]
      rfl
    · intro tz htz
      rw [List.mem_singleton] at htz
      subst htz
      exact tri_vector_y t.a t.b t.c (ne_of_not_approxEq h1).symm (ne_of_not_approxEq h3)
    · intro hE1 hE2 hE3 hne p
      rw [show pointInTriangle t p = conv3 t.a t.b t.c p from rfl,
        tri_tiling t.a t.b t.c (hE2 h2) (ne_of_not_approxEq h1) p]
      simp
  · -- (false, false, true): one trapezoid, apex b
    refine ⟨[Trapezoid.tri t.b t.c t.a], ?_, ?_, ?_, ?_⟩
    · unfold Trapezoid.fromTriangle
      rw [if_neg (by tauto), if_neg (by tauto), if_neg (by tauto), if_pos ⟨h1, h2, h3⟩]
    · rw [if_neg (by tauto), if_pos (by tauto)]
      rfl
    · intro tz htz
      rw [List.mem_singleton] at htz
      subst htz
      exact tri_vector_y t.b t.c t.a (ne_of_not_approxEq h2).symm (ne_of_not_approxEq h1)
    · intro hE1 hE2 hE3 hne p
      have hperm : pointInTriangle t p ↔ conv3 t.b t.c t.a p := by
        unfold pointInTriangle
        exact conv3_rot _ _ _ _
      rw [hperm, tri_tiling t.b t.c t.a (hE3 h3) (ne_of_not_approxEq h2) p]
      simp
  · -- (false, false, false): two trapezoids
    obtain ⟨l, hl, hlen, hnh, htile⟩ :=
      fromTriangle_fallthrough t (by tauto) (by tauto) (by tauto) (by tauto)
    refine ⟨l, hl, ?_, hnh, fun _ _ _ _ => htile⟩
    rw [if_neg (by tauto), if_neg (by tauto)]
    exact hlen

theorem f32Epsilon_le_one : f32Epsilon ≤ 1 := by
  unfold f32Epsilon
  norm_num

theorem not_approxEq_zero_eight : ¬approxEq (0 : ℝ) 8 := by
  unfold approxEq
  intro h
  have := f32Epsilon_le_one
  rw [show |(0 : ℝ) - 8| = 8 by rw [abs_sub_comm]; simp] at h
  linarith

theorem not_approxEq_eight_zero : ¬approxEq (8 : ℝ) 0 := by
  unfold approxEq
  intro h
  have := f32Epsilon_le_one
  rw [show |(8 : ℝ) - 0| = 8 by simp] at h
  linarith

/-- Witness for C3 at the concrete triangle (0,0), (10,0), (5,8): the base pair
has exactly equal `y`, the other two pairs are far apart, so exactly one
trapezoid is produced, it has non-horizontal sides, and it covers exactly the
triangle. -/
theorem c3_from_triangle_trapezoids_witness :
    ∃ l, Trapezoid.fromTriangle ⟨⟨0, 0⟩, ⟨10, 0⟩, ⟨5, 8⟩⟩ = some l ∧ l.length = 1 ∧
      (∀ tz ∈ l, tz.left.vector.y ≠ 0 ∧ tz.right.vector.y ≠ 0) ∧
      ∀ p, pointInTriangle ⟨⟨0, 0⟩, ⟨10, 0⟩, ⟨5, 8⟩⟩ p ↔
        ∃ tz ∈ l, pointInTrapezoid tz p := by
  obtain ⟨l, hl, hlen, hnh, htile⟩ :=
    c3_from_triangle_trapezoids ⟨⟨0, 0⟩, ⟨10, 0⟩, ⟨5, 8⟩⟩
  have hab : approxEq (0 : ℝ) 0 := approxEq_of_eq rfl
  refine ⟨l, hl, ?_,  hnh,
    htile (fun _ => rfl) (fun h => absurd h not_approxEq_zero_eight)
      (fun h => absurd h not_approxEq_eight_zero)
      (fun h => absurd h.2 (by norm_num))⟩
  rw [hlen,
    if_neg (fun h => absurd h.2.1 not_approxEq_zero_eight),
    if_pos
      (Or.inl ⟨hab, not_approxEq_zero_eight, not_approxEq_eight_zero⟩)]

end Chalkboard
